import Mathlib

/-!
# Verification of the brainfuck compiler/interpreter (src/main.rs)

Shallow embedding of the pipeline in `src/main.rs`:
lexer (`parse_source`), AST builder (`build_ast`), peephole optimizer
(`optimize_ast`), tree-walking interpreter (`run_ast`), and the esolang
emitter (`write_bf`).  Machine integers are modeled as `Int`/`Nat` with
explicit reductions: Rust's `as u8` cast is truncation mod 2^8 and
`as usize` is truncation mod 2^64.  Rust panics (out-of-bounds indexing,
`unwrap` on `None`) are modeled as abnormal results (`Option.none` for the
builder, a dedicated error value for the interpreter).
-/

namespace BF

/-- A brainfuck token (`enum Token` in main.rs). -/
inductive Token where
  | incr      -- "+"
  | decr      -- "-"
  | moveLeft  -- "<"
  | moveRight -- ">"
  | write     -- "."
  | loopBegin -- "["
  | loopEnd   -- "]"
deriving DecidableEq, Repr

/-- `parse_source`: extract tokens from a source character sequence,
silently dropping every unrecognized character (`filter_map` in main.rs). -/
def parse_source (source : List Char) : List Token :=
  source.filterMap fun c =>
    match c with
    | '+' => some Token.incr
    | '-' => some Token.decr
    | '<' => some Token.moveLeft
    | '>' => some Token.moveRight
    | '.' => some Token.write
    | '[' => some Token.loopBegin
    | ']' => some Token.loopEnd
    | _ => none

/-- A node of the abstract syntax tree (`enum Node` in main.rs). -/
inductive Node where
  | incr : Int → Node
  | move : Int → Node
  | write : Node
  | loop : Node → Node
  | block : List Node → Node

/-- One step of the builder loop in `build_ast`: the accumulator is the
current sibling list (`operations`) together with the stack of suspended
sibling lists (`stack`).  The `stack.pop().unwrap()` on an unmatched
`LoopEnd` panics in Rust; the panic is modeled as `none`. -/
def buildStep (acc : List Node × List (List Node)) (token : Token) :
    Option (List Node × List (List Node)) :=
  let (operations, stack) := acc
  match token with
  | Token.decr => some (operations ++ [Node.incr (-1)], stack)
  | Token.incr => some (operations ++ [Node.incr 1], stack)
  | Token.moveLeft => some (operations ++ [Node.move (-1)], stack)
  | Token.moveRight => some (operations ++ [Node.move 1], stack)
  | Token.write => some (operations ++ [Node.write], stack)
  | Token.loopBegin => some ([], operations :: stack)
  | Token.loopEnd =>
    match stack with
    | [] => none
    | prev :: rest => some (prev ++ [Node.loop (Node.block operations)], rest)

/-- Collapse a singleton list to its element, otherwise wrap in a `Block`
(the `operations.len() == 1` simplification in `build_ast` and
`optimize_ast`). -/
def collapse1 (l : List Node) : Node :=
  match l with
  | [n] => n
  | _ => Node.block l

/-- `build_ast`: fold the builder step over the token sequence.  The Rust
code ignores a non-empty leftover `stack` (unmatched `LoopBegin`s are
silently discarded), which is modeled faithfully here. -/
def build_ast (tokens : List Token) : Option Node :=
  (tokens.foldlM buildStep ([], [])).map fun acc => collapse1 acc.1

/-- The merging step inside `optimize_ast`'s `Block` case: `acc` is the
`new_nodes` vector in reverse order (head = `new_nodes.last_mut()`).
A new `Incr` is added into a trailing `Incr`, a new `Move` into a
trailing `Move`, and any other node is pushed. -/
def pushMerged (acc : List Node) (n : Node) : List Node :=
  match n, acc with
  | Node.incr v, Node.incr lv :: rest => Node.incr (lv + v) :: rest
  | Node.move v, Node.move lv :: rest => Node.move (lv + v) :: rest
  | _, _ => n :: acc

mutual
/-- `optimize_ast`: zero-delta leaves collapse to an empty `Block`, loop
bodies are optimized recursively, and inside a `Block` each child is
optimized and then merged into the previous one when both are `Incr`
(resp. both `Move`); a resulting singleton list is collapsed. -/
def optimize_ast : Node → Node
  | Node.incr v => if v = 0 then Node.block [] else Node.incr v
  | Node.move v => if v = 0 then Node.block [] else Node.move v
  | Node.write => Node.write
  | Node.loop b => Node.loop (optimize_ast b)
  | Node.block ns => collapse1 (optimizeFold [] ns).reverse

/-- The `for node in nodes` loop of `optimize_ast`'s `Block` case, with the
accumulator kept in reverse order. -/
def optimizeFold (acc : List Node) : List Node → List Node
  | [] => acc
  | n :: rest => optimizeFold (pushMerged acc (optimize_ast n)) rest
end

/-- `compile_source`: build the AST from the token stream of the source
text, then optimize it. -/
def compile_source (source : String) : Option Node :=
  (build_ast (parse_source source.data)).map optimize_ast

/-- State of the brainfuck VM (`struct State` in main.rs): the fixed tape
`memory: [u8; 30000]` is modeled as a list of byte values and the
`index: usize` pointer as a natural number. -/
structure State where
  memory : List Nat
  index : Nat
deriving DecidableEq, Repr

/-- The tape length (`[u8; 30000]`). -/
def tapeLen : Nat := 30000

/-- The all-zero initial state (`memory: [0; 30000], index: 0`). -/
def initState : State := ⟨List.replicate tapeLen 0, 0⟩

/-- Abnormal outcomes of `run_ast`.  `oob` models the Rust panic on
out-of-bounds tape indexing; `noFuel` is a modeling artifact: the Rust
`while` loop has no step bound, so the embedded interpreter takes a fuel
argument and reports exhaustion. -/
inductive RunErr where
  | oob
  | noFuel
deriving DecidableEq, Repr

/-- Rust's `as u8` cast of a signed integer: truncation to the low 8 bits,
i.e. reduction mod 2^8 (two's complement). -/
def asU8 (x : Int) : Nat := (x % 256).toNat

/-- Rust's `as usize` cast of a signed integer: truncation to the low
64 bits, i.e. reduction mod 2^64 (two's complement). -/
def asUsize (x : Int) : Nat := (x % (2 ^ 64)).toNat

/-- `run_ast`: the tree-walking interpreter, with an added fuel bound on
recursion depth so that the embedding is executable.
`Incr` sets the current cell to `(cell as isize + val) as u8`, panicking
(`RunErr.oob`) if the pointer is outside the tape; `Move` silently sets the
pointer to `(index as isize + val) as usize` with no bounds check; `Write`
emits the current cell; `Loop` re-runs its body while the current cell is
nonzero; `Block` runs its children in order, concatenating their output. -/
def run_ast : Nat → Node → State → Except RunErr (State × List Nat)
  | 0, _, _ => Except.error RunErr.noFuel
  | fuel + 1, node, s =>
    match node with
    | Node.incr v =>
      match s.memory[s.index]? with
      | none => Except.error RunErr.oob
      | some c =>
        Except.ok (⟨s.memory.set s.index (asU8 ((c : Int) + v)), s.index⟩, [])
    | Node.move v => Except.ok (⟨s.memory, asUsize ((s.index : Int) + v)⟩, [])
    | Node.write =>
      match s.memory[s.index]? with
      | none => Except.error RunErr.oob
      | some c => Except.ok (s, [c])
    | Node.loop b =>
      match s.memory[s.index]? with
      | none => Except.error RunErr.oob
      | some 0 => Except.ok (s, [])
      | some (_ + 1) => do
        let r1 ← run_ast fuel b s
        let r2 ← run_ast fuel (Node.loop b) r1.1
        Except.ok (r2.1, r1.2 ++ r2.2)
    | Node.block ns =>
      ns.foldlM (fun acc n => do
          let r ← run_ast fuel n acc.1
          Except.ok (r.1, acc.2 ++ r.2)) (s, [])

/-- Big-step semantics of `run_ast`, without the fuel artifact:
`Exec t s s' out` holds iff running `t` from state `s` terminates normally
in state `s'` emitting the byte stream `out`.  Divergence and the
out-of-bounds panic have no derivation. -/
inductive Exec : Node → State → State → List Nat → Prop where
  | incr : ∀ (v : Int) (s : State) (c : Nat), s.memory[s.index]? = some c →
      Exec (Node.incr v) s ⟨s.memory.set s.index (asU8 ((c : Int) + v)), s.index⟩ []
  | move : ∀ (v : Int) (s : State),
      Exec (Node.move v) s ⟨s.memory, asUsize ((s.index : Int) + v)⟩ []
  | write : ∀ (s : State) (c : Nat), s.memory[s.index]? = some c →
      Exec Node.write s s [c]
  | loopDone : ∀ (b : Node) (s : State), s.memory[s.index]? = some 0 →
      Exec (Node.loop b) s s []
  | loopStep : ∀ (b : Node) (s s1 s2 : State) (c : Nat) (o1 o2 : List Nat),
      s.memory[s.index]? = some c → c ≠ 0 →
      Exec b s s1 o1 → Exec (Node.loop b) s1 s2 o2 →
      Exec (Node.loop b) s s2 (o1 ++ o2)
  | blockNil : ∀ (s : State), Exec (Node.block []) s s []
  | blockCons : ∀ (n : Node) (ns : List Node) (s s1 s2 : State) (o1 o2 : List Nat),
      Exec n s s1 o1 → Exec (Node.block ns) s1 s2 o2 →
      Exec (Node.block (n :: ns)) s s2 (o1 ++ o2)

mutual
/-- The esolang emitter `write_bf`: an `Incr`/`Move` of delta `v` expands
into `|v|` unit characters of the correct sign, a loop is wrapped in
brackets, a block emits its children in order. -/
def write_bf : Node → List Char
  | Node.incr v => List.replicate v.natAbs (if v < 0 then '-' else '+')
  | Node.move v => List.replicate v.natAbs (if v < 0 then '<' else '>')
  | Node.write => ['.']
  | Node.loop b => '[' :: (write_bf b ++ [']'])
  | Node.block ns => write_bfList ns

/-- Emission of a sibling list (the `Block` case of `write_bf`). -/
def write_bfList : List Node → List Char
  | [] => []
  | n :: rest => write_bf n ++ write_bfList rest
end

mutual
/-- The token stream produced by lexing the emission of a node
(specification device used to analyze the round-trip). -/
def emitTok : Node → List Token
  | Node.incr v => List.replicate v.natAbs (if v < 0 then Token.decr else Token.incr)
  | Node.move v => List.replicate v.natAbs (if v < 0 then Token.moveLeft else Token.moveRight)
  | Node.write => [Token.write]
  | Node.loop b => Token.loopBegin :: (emitTok b ++ [Token.loopEnd])
  | Node.block ns => emitTokList ns

/-- Token stream of a sibling list. -/
def emitTokList : List Node → List Token
  | [] => []
  | n :: rest => emitTok n ++ emitTokList rest
end

mutual
/-- The sibling list obtained by re-parsing the emission of a node:
every `Incr`/`Move` becomes `|v|` unit nodes, a loop becomes a single
loop whose body is the block of its re-parsed units (specification device
used to analyze the round-trip). -/
def units : Node → List Node
  | Node.incr v => List.replicate v.natAbs (Node.incr (if v < 0 then -1 else 1))
  | Node.move v => List.replicate v.natAbs (Node.move (if v < 0 then -1 else 1))
  | Node.write => [Node.write]
  | Node.loop b => [Node.loop (Node.block (units b))]
  | Node.block ns => unitsList ns

/-- Units of a sibling list. -/
def unitsList : List Node → List Node
  | [] => []
  | n :: rest => units n ++ unitsList rest
end

/-- Modelled from the spec (§4.3, "maximal runs"): fold every maximal run
of consecutive `Incr` nodes into one `Incr` whose delta is the sum of the
run, and likewise for `Move`; `Write`, `Loop` and `Block` nodes pass
through and reset the adjacent run. -/
def foldRuns : List Node → List Node
  | [] => []
  | Node.incr v :: rest =>
    match foldRuns rest with
    | Node.incr w :: out => Node.incr (v + w) :: out
    | out => Node.incr v :: out
  | Node.move v :: rest =>
    match foldRuns rest with
    | Node.move w :: out => Node.move (v + w) :: out
    | out => Node.move v :: out
  | n :: rest => n :: foldRuns rest

/-- Is the node an `Incr`? -/
def isIncrB : Node → Bool
  | Node.incr _ => true
  | _ => false

/-- Is the node a `Move`? -/
def isMoveB : Node → Bool
  | Node.move _ => true
  | _ => false

/-- Is the node a `Block`? -/
def isBlockB : Node → Bool
  | Node.block _ => true
  | _ => false

/-- Two adjacent nodes are mergeable by the optimizer iff both are `Incr`
or both are `Move`. -/
def sameKindB (a b : Node) : Bool :=
  (isIncrB a && isIncrB b) || (isMoveB a && isMoveB b)

/-- No two adjacent elements of the list are mergeable. -/
def noAdjB : List Node → Bool
  | [] => true
  | [_] => true
  | a :: b :: l => !sameKindB a b && noAdjB (b :: l)

mutual
/-- Every `Incr`/`Move` delta in the tree is nonzero. -/
def nzB : Node → Bool
  | Node.incr v => v != 0
  | Node.move v => v != 0
  | Node.write => true
  | Node.loop b => nzB b
  | Node.block ns => nzListB ns

/-- `nzB` for every node of a list. -/
def nzListB : List Node → Bool
  | [] => true
  | n :: rest => nzB n && nzListB rest
end

mutual
/-- Every `Block` of the tree has length ≠ 1 and no two adjacent mergeable
children (the normal form maintained by the optimizer's block pass). -/
def invB : Node → Bool
  | Node.incr _ => true
  | Node.move _ => true
  | Node.write => true
  | Node.loop b => invB b
  | Node.block ns => (ns.length != 1) && noAdjB ns && invListB ns

/-- `invB` for every node of a list. -/
def invListB : List Node → Bool
  | [] => true
  | n :: rest => invB n && invListB rest
end

mutual
/-- No `Block` of the tree has a `Block` child (true of every tree the
builder produces: blocks only appear as loop bodies or at the root). -/
def nbcB : Node → Bool
  | Node.incr _ => true
  | Node.move _ => true
  | Node.write => true
  | Node.loop b => nbcB b
  | Node.block ns => nbcListB ns

/-- `nbcB` plus non-`Block`-ness for every node of a list. -/
def nbcListB : List Node → Bool
  | [] => true
  | n :: rest => !isBlockB n && nbcB n && nbcListB rest
end

mutual
/-- Zero-delta leaves replaced by empty blocks, everything else kept:
the action of one optimizer pass on a tree already in block normal form. -/
def elimZ : Node → Node
  | Node.incr v => if v = 0 then Node.block [] else Node.incr v
  | Node.move v => if v = 0 then Node.block [] else Node.move v
  | Node.write => Node.write
  | Node.loop b => Node.loop (elimZ b)
  | Node.block ns => Node.block (elimZList ns)

/-- `elimZ` mapped over a list. -/
def elimZList : List Node → List Node
  | [] => []
  | n :: rest => elimZ n :: elimZList rest
end

/-! ## A structural induction principle for `Node` -/

/-- Every node of a block is smaller than the block. -/
theorem sizeOf_lt_of_mem {n : Node} {ns : List Node} (h : n ∈ ns) :
    sizeOf n < sizeOf (Node.block ns) := by
  induction ns with
  | nil => cases h
  | cons x xs ih =>
    rcases List.mem_cons.mp h with rfl | h
    · simp [Node.block.sizeOf_spec, List.cons.sizeOf_spec]
      omega
    · have := ih h
      simp only [Node.block.sizeOf_spec, List.cons.sizeOf_spec] at this ⊢
      omega

/-- Structural induction over `Node` where the block case gets the
inductive hypothesis for every member of the child list. -/
theorem Node.recMem {P : Node → Prop}
    (hincr : ∀ v, P (Node.incr v)) (hmove : ∀ v, P (Node.move v))
    (hwrite : P Node.write)
    (hloop : ∀ b, P b → P (Node.loop b))
    (hblock : ∀ ns, (∀ n ∈ ns, P n) → P (Node.block ns)) :
    ∀ t, P t := by
  have H : ∀ (k : Nat) (t : Node), sizeOf t ≤ k → P t := by
    intro k
    induction k with
    | zero =>
      intro t ht
      exfalso
      cases t <;> simp_all
    | succ k ih =>
      intro t ht
      cases t with
      | incr v => exact hincr v
      | move v => exact hmove v
      | write => exact hwrite
      | loop b =>
        refine hloop b (ih b ?_)
        simp only [Node.loop.sizeOf_spec] at ht
        omega
      | block ns =>
        refine hblock ns fun n hn => ih n ?_
        have := sizeOf_lt_of_mem hn
        omega
  exact fun t => H (sizeOf t) t le_rfl

/-! ## The optimizer's block pass computes `foldRuns` -/

theorem pushMerged_ne_nil (acc : List Node) (n : Node) : pushMerged acc n ≠ [] := by
  unfold pushMerged
  split <;> simp

/-- Elements of the accumulator below the top are inert in the merge fold. -/
theorem foldl_pushMerged_frame (l : List Node) :
    ∀ acc1 acc2 : List Node, acc1 ≠ [] →
      List.foldl pushMerged (acc1 ++ acc2) l = List.foldl pushMerged acc1 l ++ acc2 := by
  induction l with
  | nil => intro acc1 acc2 h; simp
  | cons x t ih =>
    intro acc1 acc2 hne
    obtain ⟨a, acc1', rfl⟩ : ∃ a acc1', acc1 = a :: acc1' := by
      cases acc1 with
      | nil => exact absurd rfl hne
      | cons a l => exact ⟨a, l, rfl⟩
    have hstep : pushMerged ((a :: acc1') ++ acc2) x = pushMerged (a :: acc1') x ++ acc2 := by
      cases x <;> cases a <;> simp [pushMerged]
    simp only [List.foldl_cons, hstep]
    exact ih _ _ (pushMerged_ne_nil _ _)

/-- The head of `foldRuns (x :: t)` has the same `Incr`/`Move` kind as `x`. -/
theorem foldRuns_head (x : Node) (t : List Node) :
    ∃ n out, foldRuns (x :: t) = n :: out ∧
      isIncrB n = isIncrB x ∧ isMoveB n = isMoveB x := by
  cases x with
  | incr v =>
    rcases ht : foldRuns t with _ | ⟨n, out⟩
    · exact ⟨Node.incr v, [], by simp [foldRuns, ht], rfl, rfl⟩
    · cases n with
      | incr w => exact ⟨Node.incr (v + w), out, by simp [foldRuns, ht], rfl, rfl⟩
      | move w => exact ⟨Node.incr v, Node.move w :: out, by simp [foldRuns, ht], rfl, rfl⟩
      | write => exact ⟨Node.incr v, Node.write :: out, by simp [foldRuns, ht], rfl, rfl⟩
      | loop b => exact ⟨Node.incr v, Node.loop b :: out, by simp [foldRuns, ht], rfl, rfl⟩
      | block bs => exact ⟨Node.incr v, Node.block bs :: out, by simp [foldRuns, ht], rfl, rfl⟩
  | move v =>
    rcases ht : foldRuns t with _ | ⟨n, out⟩
    · exact ⟨Node.move v, [], by simp [foldRuns, ht], rfl, rfl⟩
    · cases n with
      | incr w => exact ⟨Node.move v, Node.incr w :: out, by simp [foldRuns, ht], rfl, rfl⟩
      | move w => exact ⟨Node.move (v + w), out, by simp [foldRuns, ht], rfl, rfl⟩
      | write => exact ⟨Node.move v, Node.write :: out, by simp [foldRuns, ht], rfl, rfl⟩
      | loop b => exact ⟨Node.move v, Node.loop b :: out, by simp [foldRuns, ht], rfl, rfl⟩
      | block bs => exact ⟨Node.move v, Node.block bs :: out, by simp [foldRuns, ht], rfl, rfl⟩
  | write => exact ⟨Node.write, foldRuns t, by simp [foldRuns], rfl, rfl⟩
  | loop b => exact ⟨Node.loop b, foldRuns t, by simp [foldRuns], rfl, rfl⟩
  | block ns => exact ⟨Node.block ns, foldRuns t, by simp [foldRuns], rfl, rfl⟩

/-- Two adjacent `Incr` nodes fold to their sum. -/
theorem foldRuns_incr_incr (a b : Int) (t : List Node) :
    foldRuns (Node.incr a :: Node.incr b :: t) = foldRuns (Node.incr (a + b) :: t) := by
  rcases ht : foldRuns t with _ | ⟨n, out⟩
  · simp [foldRuns, ht]
  · cases n <;> simp [foldRuns, ht, Int.add_assoc]

/-- Two adjacent `Move` nodes fold to their sum. -/
theorem foldRuns_move_move (a b : Int) (t : List Node) :
    foldRuns (Node.move a :: Node.move b :: t) = foldRuns (Node.move (a + b) :: t) := by
  rcases ht : foldRuns t with _ | ⟨n, out⟩
  · simp [foldRuns, ht]
  · cases n <;> simp [foldRuns, ht, Int.add_assoc]

/-- A non-mergeable adjacent pair does not fold. -/
theorem foldRuns_cons_of_not_sameKind {x y : Node} (h : sameKindB x y = false)
    (t : List Node) : foldRuns (x :: y :: t) = x :: foldRuns (y :: t) := by
  obtain ⟨n, out, heq, hinc, hmov⟩ := foldRuns_head y t
  cases x with
  | incr v =>
    have hy : isIncrB y = false := by
      cases y <;> simp_all [sameKindB, isIncrB, isMoveB]
    rw [hy] at hinc
    cases n <;> simp_all [foldRuns, isIncrB]
  | move v =>
    have hy : isMoveB y = false := by
      cases y <;> simp_all [sameKindB, isIncrB, isMoveB]
    rw [hy] at hmov
    cases n <;> simp_all [foldRuns, isMoveB]
  | write => simp [foldRuns]
  | loop b => simp [foldRuns]
  | block ns => simp [foldRuns]

/-- The optimizer's in-place left merge computes the run folding. -/
theorem foldl_pushMerged_singleton (l : List Node) :
    ∀ x, (List.foldl pushMerged [x] l).reverse = foldRuns (x :: l) := by
  induction l with
  | nil =>
    intro x
    cases x <;> simp [foldRuns]
  | cons y t ih =>
    intro x
    by_cases hsk : sameKindB x y = true
    · rcases x with vx | vx | _ | _ | _ <;> rcases y with vy | vy | _ | _ | _ <;>
        simp [sameKindB, isIncrB, isMoveB] at hsk
      · show (List.foldl pushMerged (pushMerged [Node.incr vx] (Node.incr vy)) t).reverse = _
        rw [show pushMerged [Node.incr vx] (Node.incr vy) = [Node.incr (vx + vy)] from rfl]
        rw [ih (Node.incr (vx + vy)), foldRuns_incr_incr]
      · show (List.foldl pushMerged (pushMerged [Node.move vx] (Node.move vy)) t).reverse = _
        rw [show pushMerged [Node.move vx] (Node.move vy) = [Node.move (vx + vy)] from rfl]
        rw [ih (Node.move (vx + vy)), foldRuns_move_move]
    · have hsk' : sameKindB x y = false := by simpa using hsk
      have hpush : pushMerged [x] y = [y] ++ [x] := by
        rcases x with vx | vx | _ | _ | _ <;> rcases y with vy | vy | _ | _ | _ <;>
          simp_all [pushMerged, sameKindB, isIncrB, isMoveB]
      show (List.foldl pushMerged (pushMerged [x] y) t).reverse = _
      rw [hpush, foldl_pushMerged_frame t [y] [x] (by simp)]
      simp only [List.reverse_append, List.reverse_cons, List.reverse_nil, List.nil_append,
        List.singleton_append]
      rw [ih y, foldRuns_cons_of_not_sameKind hsk']

/-- The merge fold from the empty accumulator computes `foldRuns`. -/
theorem foldl_pushMerged_eq_foldRuns (l : List Node) :
    (List.foldl pushMerged [] l).reverse = foldRuns l := by
  cases l with
  | nil => rfl
  | cons x t =>
    show (List.foldl pushMerged (pushMerged [] x) t).reverse = _
    rw [show pushMerged [] x = [x] by cases x <;> rfl]
    exact foldl_pushMerged_singleton t x

/-- `optimizeFold` is the merge fold over the optimized children. -/
theorem optimizeFold_eq (l : List Node) :
    ∀ acc, optimizeFold acc l = List.foldl pushMerged acc (l.map optimize_ast) := by
  induction l with
  | nil => intro acc; rfl
  | cons x t ih => intro acc; simp [optimizeFold, ih]

/-- Characterization of the optimizer on blocks: optimize every child, fold
the maximal mergeable runs, collapse a singleton result. -/
theorem optimize_block (ns : List Node) :
    optimize_ast (Node.block ns) = collapse1 (foldRuns (ns.map optimize_ast)) := by
  show collapse1 (optimizeFold [] ns).reverse = _
  rw [optimizeFold_eq, foldl_pushMerged_eq_foldRuns]

/-! ## Agreement between the fuel interpreter and the big-step relation -/

theorem eok_bind {α β : Type} (a : α) (g : α → Except RunErr β) :
    (Except.ok a >>= g : Except RunErr β) = g a := rfl

theorem eerr_bind {α β : Type} (e : RunErr) (g : α → Except RunErr β) :
    (Except.error e >>= g : Except RunErr β) = Except.error e := rfl

theorem run_zero (t : Node) (s : State) :
    run_ast 0 t s = Except.error RunErr.noFuel := rfl

theorem run_incr_oob {s : State} (f : Nat) (v : Int)
    (hm : s.memory[s.index]? = none) :
    run_ast (f + 1) (Node.incr v) s = Except.error RunErr.oob := by
  simp only [run_ast, hm]

theorem run_incr_ok {s : State} {c : Nat} (f : Nat) (v : Int)
    (hm : s.memory[s.index]? = some c) :
    run_ast (f + 1) (Node.incr v) s =
      Except.ok (⟨s.memory.set s.index (asU8 ((c : Int) + v)), s.index⟩, []) := by
  simp only [run_ast, hm]

theorem run_move (f : Nat) (v : Int) (s : State) :
    run_ast (f + 1) (Node.move v) s =
      Except.ok (⟨s.memory, asUsize ((s.index : Int) + v)⟩, []) := rfl

theorem run_write_oob {s : State} (f : Nat)
    (hm : s.memory[s.index]? = none) :
    run_ast (f + 1) Node.write s = Except.error RunErr.oob := by
  simp only [run_ast, hm]

theorem run_write_ok {s : State} {c : Nat} (f : Nat)
    (hm : s.memory[s.index]? = some c) :
    run_ast (f + 1) Node.write s = Except.ok (s, [c]) := by
  simp only [run_ast, hm]

theorem run_loop_oob {s : State} (f : Nat) (b : Node)
    (hm : s.memory[s.index]? = none) :
    run_ast (f + 1) (Node.loop b) s = Except.error RunErr.oob := by
  simp only [run_ast, hm]

theorem run_loop_done {s : State} (f : Nat) (b : Node)
    (hm : s.memory[s.index]? = some 0) :
    run_ast (f + 1) (Node.loop b) s = Except.ok (s, []) := by
  simp only [run_ast, hm]

theorem run_loop_step {s : State} {c : Nat} (f : Nat) (b : Node)
    (hm : s.memory[s.index]? = some (c + 1)) :
    run_ast (f + 1) (Node.loop b) s =
      (run_ast f b s >>= fun r1 =>
        run_ast f (Node.loop b) r1.1 >>= fun r2 =>
          Except.ok (r2.1, r1.2 ++ r2.2)) := by
  simp only [run_ast, hm]

theorem run_block_nil (f : Nat) (s : State) :
    run_ast (f + 1) (Node.block []) s = Except.ok (s, []) := rfl

/-- The output accumulated so far is a passive prefix of the block fold. -/
theorem run_foldlM_shift (f : Nat) (ns : List Node) :
    ∀ (s : State) (out0 : List Nat),
      ns.foldlM (fun (p : State × List Nat) (n : Node) =>
          run_ast f n p.1 >>= fun r => Except.ok (r.1, p.2 ++ r.2)) (s, out0) =
        (ns.foldlM (fun (p : State × List Nat) (n : Node) =>
            run_ast f n p.1 >>= fun r => Except.ok (r.1, p.2 ++ r.2)) (s, [])).map
          fun r => (r.1, out0 ++ r.2) := by
  induction ns with
  | nil =>
    intro s out0
    simp [List.foldlM, Except.map, pure, Except.pure]
  | cons n t ih =>
    intro s out0
    simp only [List.foldlM]
    cases hr : run_ast f n s with
    | error e => simp only [hr, eerr_bind]; rfl
    | ok r1 =>
      simp only [hr, eok_bind, List.nil_append]
      rw [ih r1.1 (out0 ++ r1.2), ih r1.1 r1.2]
      cases t.foldlM (fun (p : State × List Nat) (n : Node) =>
          run_ast f n p.1 >>= fun r => Except.ok (r.1, p.2 ++ r.2)) (r1.1, []) with
      | error e => rfl
      | ok r2 => simp [Except.map]

/-- Unfolding a block run one child at a time. -/
theorem run_block_cons (f : Nat) (n : Node) (ns : List Node) (s : State) :
    run_ast (f + 1) (Node.block (n :: ns)) s =
      (run_ast f n s >>= fun r1 =>
        run_ast (f + 1) (Node.block ns) r1.1 >>= fun r2 =>
          Except.ok (r2.1, r1.2 ++ r2.2)) := by
  show ((n :: ns).foldlM (fun (p : State × List Nat) (n : Node) =>
      run_ast f n p.1 >>= fun r => Except.ok (r.1, p.2 ++ r.2)) (s, [])) = _
  simp only [List.foldlM]
  cases hr : run_ast f n s with
  | error e => simp only [hr, eerr_bind]
  | ok r1 =>
    simp only [hr, eok_bind, List.nil_append]
    rw [run_foldlM_shift]
    show _ = (ns.foldlM (fun (p : State × List Nat) (n : Node) =>
        run_ast f n p.1 >>= fun r => Except.ok (r.1, p.2 ++ r.2)) (r1.1, []) >>= fun r2 =>
          Except.ok (r2.1, r1.2 ++ r2.2))
    cases ns.foldlM (fun (p : State × List Nat) (n : Node) =>
        run_ast f n p.1 >>= fun r => Except.ok (r.1, p.2 ++ r.2)) (r1.1, []) with
    | error e => rfl
    | ok r2 => rfl

/-- Fuel monotonicity of the interpreter (successful runs stay successful). -/
theorem run_mono :
    ∀ (f : Nat) (t : Node) (s : State) (r : State × List Nat),
      run_ast f t s = Except.ok r → run_ast (f + 1) t s = Except.ok r := by
  intro f
  induction f with
  | zero => intro t s r h; rw [run_zero] at h; cases h
  | succ f ih =>
    intro t s r h
    cases t with
    | incr v =>
      cases hm : s.memory[s.index]? with
      | none => rw [run_incr_oob f v hm] at h; cases h
      | some c => rw [run_incr_ok f v hm] at h; rw [run_incr_ok (f + 1) v hm]; exact h
    | move v => rw [run_move] at h; rw [run_move]; exact h
    | write =>
      cases hm : s.memory[s.index]? with
      | none => rw [run_write_oob f hm] at h; cases h
      | some c => rw [run_write_ok f hm] at h; rw [run_write_ok (f + 1) hm]; exact h
    | loop b =>
      cases hm : s.memory[s.index]? with
      | none => rw [run_loop_oob f b hm] at h; cases h
      | some c =>
        cases c with
        | zero => rw [run_loop_done f b hm] at h; rw [run_loop_done (f + 1) b hm]; exact h
        | succ c =>
          rw [run_loop_step f b hm] at h
          rw [run_loop_step (f + 1) b hm]
          cases hb : run_ast f b s with
          | error e => rw [hb, eerr_bind] at h; cases h
          | ok r1 =>
            rw [hb, eok_bind] at h
            cases hl : run_ast f (Node.loop b) r1.1 with
            | error e => rw [hl, eerr_bind] at h; cases h
            | ok r2 =>
              rw [hl, eok_bind] at h
              rw [ih b s r1 hb, eok_bind, ih (Node.loop b) r1.1 r2 hl, eok_bind]
              exact h
    | block ns =>
      have inner : ∀ (l : List Node) (s0 : State) (r : State × List Nat),
          run_ast (f + 1) (Node.block l) s0 = Except.ok r →
            run_ast (f + 2) (Node.block l) s0 = Except.ok r := by
        intro l
        induction l with
        | nil =>
          intro s0 r h
          rw [run_block_nil] at h
          rw [run_block_nil]
          exact h
        | cons n t iht =>
          intro s0 r h
          rw [run_block_cons] at h
          rw [run_block_cons]
          cases hn : run_ast f n s0 with
          | error e => rw [hn, eerr_bind] at h; cases h
          | ok r1 =>
            rw [hn, eok_bind] at h
            rw [ih n s0 r1 hn, eok_bind]
            cases ht : run_ast (f + 1) (Node.block t) r1.1 with
            | error e => rw [ht, eerr_bind] at h; cases h
            | ok r2 =>
              rw [ht, eok_bind] at h
              rw [iht r1.1 r2 ht, eok_bind]
              exact h
      exact inner ns s r h

/-- Fuel monotonicity, `≤` form. -/
theorem run_mono_le {f g : Nat} (hfg : f ≤ g) {t : Node} {s : State}
    {r : State × List Nat} (h : run_ast f t s = Except.ok r) :
    run_ast g t s = Except.ok r := by
  induction g with
  | zero =>
    have hf0 : f = 0 := Nat.le_zero.mp hfg
    subst hf0
    exact h
  | succ g ihg =>
    rcases Nat.lt_or_ge f (g + 1) with hlt | hge
    · exact run_mono g t s r (ihg (Nat.lt_succ_iff.mp hlt))
    · have hfg1 : f = g + 1 := Nat.le_antisymm hfg hge
      subst hfg1
      exact h

/-- Soundness: a successful fuel run is a big-step derivation. -/
theorem run_sound :
    ∀ (f : Nat) (t : Node) (s s2 : State) (o : List Nat),
      run_ast f t s = Except.ok (s2, o) → Exec t s s2 o := by
  intro f
  induction f with
  | zero => intro t s s2 o h; rw [run_zero] at h; cases h
  | succ f ih =>
    intro t s s2 o h
    cases t with
    | incr v =>
      cases hm : s.memory[s.index]? with
      | none => rw [run_incr_oob f v hm] at h; cases h
      | some c =>
        rw [run_incr_ok f v hm] at h
        cases h
        exact Exec.incr v s c hm
    | move v =>
      rw [run_move] at h
      cases h
      exact Exec.move v s
    | write =>
      cases hm : s.memory[s.index]? with
      | none => rw [run_write_oob f hm] at h; cases h
      | some c =>
        rw [run_write_ok f hm] at h
        cases h
        exact Exec.write s c hm
    | loop b =>
      cases hm : s.memory[s.index]? with
      | none => rw [run_loop_oob f b hm] at h; cases h
      | some c =>
        cases c with
        | zero =>
          rw [run_loop_done f b hm] at h
          cases h
          exact Exec.loopDone b s hm
        | succ c =>
          rw [run_loop_step f b hm] at h
          cases hb : run_ast f b s with
          | error e => rw [hb, eerr_bind] at h; cases h
          | ok r1 =>
            rw [hb, eok_bind] at h
            cases hl : run_ast f (Node.loop b) r1.1 with
            | error e => rw [hl, eerr_bind] at h; cases h
            | ok r2 =>
              rw [hl, eok_bind] at h
              cases h
              exact Exec.loopStep b s r1.1 r2.1 (c + 1) r1.2 r2.2 hm (Nat.succ_ne_zero c)
                (ih b s r1.1 r1.2 hb) (ih (Node.loop b) r1.1 r2.1 r2.2 hl)
    | block ns =>
      have inner : ∀ (l : List Node) (s0 s2 : State) (o : List Nat),
          run_ast (f + 1) (Node.block l) s0 = Except.ok (s2, o) →
            Exec (Node.block l) s0 s2 o := by
        intro l
        induction l with
        | nil =>
          intro s0 s2 o h
          rw [run_block_nil] at h
          cases h
          exact Exec.blockNil s0
        | cons n t iht =>
          intro s0 s2 o h
          rw [run_block_cons] at h
          cases hn : run_ast f n s0 with
          | error e => rw [hn, eerr_bind] at h; cases h
          | ok r1 =>
            rw [hn, eok_bind] at h
            cases ht : run_ast (f + 1) (Node.block t) r1.1 with
            | error e => rw [ht, eerr_bind] at h; cases h
            | ok r2 =>
              rw [ht, eok_bind] at h
              cases h
              exact Exec.blockCons n t s0 r1.1 r2.1 r1.2 r2.2
                (ih n s0 r1.1 r1.2 hn) (iht r1.1 r2.1 r2.2 ht)
      exact inner ns s s2 o h

/-- Completeness: every big-step derivation is realized by some fuel. -/
theorem run_complete {t : Node} {s s2 : State} {o : List Nat}
    (h : Exec t s s2 o) : ∃ f, run_ast f t s = Except.ok (s2, o) := by
  induction h with
  | incr v s c hm => exact ⟨1, run_incr_ok 0 v hm⟩
  | move v s => exact ⟨1, run_move 0 v s⟩
  | write s c hm => exact ⟨1, run_write_ok 0 hm⟩
  | loopDone b s hm => exact ⟨1, run_loop_done 0 b hm⟩
  | loopStep b s s1 s2 c o1 o2 hm hc hb hl ihb ihl =>
    obtain ⟨f1, h1⟩ := ihb
    obtain ⟨f2, h2⟩ := ihl
    obtain ⟨c', rfl⟩ : ∃ c', c = c' + 1 := by
      cases c with
      | zero => exact absurd rfl hc
      | succ c' => exact ⟨c', rfl⟩
    refine ⟨max f1 f2 + 1, ?_⟩
    rw [run_loop_step (max f1 f2) b hm]
    rw [run_mono_le (Nat.le_max_left f1 f2) h1, eok_bind,
      run_mono_le (Nat.le_max_right f1 f2) h2, eok_bind]
  | blockNil s => exact ⟨1, run_block_nil 0 s⟩
  | blockCons n ns s s1 s2 o1 o2 hn hns ihn ihns =>
    obtain ⟨f1, h1⟩ := ihn
    obtain ⟨f2, h2⟩ := ihns
    refine ⟨max f1 (f2 + 1) + 1, ?_⟩
    rw [run_block_cons]
    rw [run_mono_le (Nat.le_max_left f1 (f2 + 1)) h1, eok_bind]
    have hgrow : f2 ≤ max f1 (f2 + 1) := le_trans (Nat.le_succ f2) (Nat.le_max_right f1 (f2 + 1))
    rcases Nat.exists_eq_add_of_le hgrow with ⟨d, hd⟩
    rw [show max f1 (f2 + 1) + 1 = (max f1 (f2 + 1)) + 1 from rfl]
    rw [run_mono_le (by omega : f2 ≤ max f1 (f2 + 1) + 1) h2, eok_bind]

/-- The two semantics agree on terminating runs. -/
theorem run_agrees (t : Node) (s s2 : State) (o : List Nat) :
    (∃ f, run_ast f t s = Except.ok (s2, o)) ↔ Exec t s s2 o := by
  constructor
  · rintro ⟨f, hf⟩
    exact run_sound f t s s2 o hf
  · exact run_complete

/-! ## Semantic equivalences used to prove that `optimize_ast` preserves
observable behavior -/

/-- Truncating to a byte commutes with later byte arithmetic. -/
theorem asU8_cast_shift (x b : Int) : asU8 ((asU8 x : Int) + b) = asU8 (x + b) := by
  unfold asU8
  rw [Int.toNat_of_nonneg (Int.emod_nonneg x (by norm_num : (256 : Int) ≠ 0)),
    Int.emod_add_emod]

/-- Truncating to a machine word commutes with later word arithmetic. -/
theorem asUsize_cast_shift (x b : Int) : asUsize ((asUsize x : Int) + b) = asUsize (x + b) := by
  unfold asUsize
  rw [Int.toNat_of_nonneg (Int.emod_nonneg x (by positivity : ((2 : Int) ^ 64) ≠ 0)),
    Int.emod_add_emod]

theorem exec_incr_iff {v : Int} {s s2 : State} {o : List Nat} :
    Exec (Node.incr v) s s2 o ↔
      ∃ c, s.memory[s.index]? = some c ∧
        s2 = ⟨s.memory.set s.index (asU8 ((c : Int) + v)), s.index⟩ ∧ o = [] := by
  constructor
  · intro h
    cases h with
    | incr v s c hm => exact ⟨c, hm, rfl, rfl⟩
  · rintro ⟨c, hm, rfl, rfl⟩
    exact Exec.incr v s c hm

theorem exec_move_iff {v : Int} {s s2 : State} {o : List Nat} :
    Exec (Node.move v) s s2 o ↔
      s2 = ⟨s.memory, asUsize ((s.index : Int) + v)⟩ ∧ o = [] := by
  constructor
  · intro h
    cases h with
    | move v s => exact ⟨rfl, rfl⟩
  · rintro ⟨rfl, rfl⟩
    exact Exec.move v s

theorem exec_write_iff {s s2 : State} {o : List Nat} :
    Exec Node.write s s2 o ↔
      ∃ c, s.memory[s.index]? = some c ∧ s2 = s ∧ o = [c] := by
  constructor
  · intro h
    cases h with
    | write s c hm => exact ⟨c, hm, rfl, rfl⟩
  · rintro ⟨c, hm, rfl, rfl⟩
    exact Exec.write s2 c hm

theorem exec_block_nil_iff {s s2 : State} {o : List Nat} :
    Exec (Node.block []) s s2 o ↔ s2 = s ∧ o = [] := by
  constructor
  · intro h
    cases h with
    | blockNil s => exact ⟨rfl, rfl⟩
  · rintro ⟨rfl, rfl⟩
    exact Exec.blockNil s2

theorem exec_block_cons_iff {n : Node} {ns : List Node} {s s2 : State} {o : List Nat} :
    Exec (Node.block (n :: ns)) s s2 o ↔
      ∃ s1 o1 o2, Exec n s s1 o1 ∧ Exec (Node.block ns) s1 s2 o2 ∧ o = o1 ++ o2 := by
  constructor
  · intro h
    cases h with
    | blockCons n ns s s1 s2 o1 o2 h1 h2 => exact ⟨s1, o1, o2, h1, h2, rfl⟩
  · rintro ⟨s1, o1, o2, h1, h2, rfl⟩
    exact Exec.blockCons n ns s s1 s2 o1 o2 h1 h2

/-- A singleton block means exactly its element. -/
theorem exec_block_singleton_iff {n : Node} {s s2 : State} {o : List Nat} :
    Exec (Node.block [n]) s s2 o ↔ Exec n s s2 o := by
  rw [exec_block_cons_iff]
  constructor
  · rintro ⟨s1, o1, o2, h1, h2, rfl⟩
    rw [exec_block_nil_iff] at h2
    obtain ⟨rfl, rfl⟩ := h2
    simpa using h1
  · intro h
    exact ⟨s2, o, [], h, Exec.blockNil s2, by simp⟩

/-- `collapse1` does not change the meaning of a sibling list. -/
theorem exec_collapse1 (l : List Node) (s s2 : State) (o : List Nat) :
    Exec (collapse1 l) s s2 o ↔ Exec (Node.block l) s s2 o := by
  match l with
  | [] => exact Iff.rfl
  | [n] => exact (exec_block_singleton_iff).symm
  | a :: b :: rest => exact Iff.rfl

/-- Replacing the tail of a block by an equivalent tail preserves meaning. -/
theorem exec_block_congr_tail {l1 l2 : List Node}
    (h : ∀ s s2 o, Exec (Node.block l1) s s2 o ↔ Exec (Node.block l2) s s2 o)
    (n : Node) (s s2 : State) (o : List Nat) :
    Exec (Node.block (n :: l1)) s s2 o ↔ Exec (Node.block (n :: l2)) s s2 o := by
  rw [exec_block_cons_iff, exec_block_cons_iff]
  constructor
  · rintro ⟨s1, o1, o2, h1, h2, rfl⟩
    exact ⟨s1, o1, o2, h1, (h s1 s2 o2).mp h2, rfl⟩
  · rintro ⟨s1, o1, o2, h1, h2, rfl⟩
    exact ⟨s1, o1, o2, h1, (h s1 s2 o2).mpr h2, rfl⟩

/-- Merging two adjacent `Incr` nodes preserves meaning. -/
theorem exec_merge_incr (a b : Int) (tail : List Node) (s s2 : State) (o : List Nat) :
    Exec (Node.block (Node.incr a :: Node.incr b :: tail)) s s2 o ↔
      Exec (Node.block (Node.incr (a + b) :: tail)) s s2 o := by
  rw [exec_block_cons_iff, exec_block_cons_iff]
  constructor
  · rintro ⟨s1, o1, o2, h1, h2, rfl⟩
    rw [exec_incr_iff] at h1
    obtain ⟨c, hm, rfl, rfl⟩ := h1
    rw [exec_block_cons_iff] at h2
    obtain ⟨s1', o1', o2', h1', h2', rfl⟩ := h2
    rw [exec_incr_iff] at h1'
    obtain ⟨c', hm', rfl, rfl⟩ := h1'
    have hlen : s.index < s.memory.length := (List.getElem?_eq_some.mp hm).1
    dsimp only at hm' h2'
    rw [List.getElem?_set_self hlen] at hm'
    injection hm' with hc'
    subst hc'
    rw [List.set_set, asU8_cast_shift ((c : Int) + a) b, Int.add_assoc] at h2'
    exact ⟨⟨s.memory.set s.index (asU8 ((c : Int) + (a + b))), s.index⟩, [], o2',
      Exec.incr (a + b) s c hm, h2', by simp⟩
  · rintro ⟨s1, o1, o2, h1, h2, rfl⟩
    rw [exec_incr_iff] at h1
    obtain ⟨c, hm, rfl, rfl⟩ := h1
    have hlen : s.index < s.memory.length := (List.getElem?_eq_some.mp hm).1
    refine ⟨⟨s.memory.set s.index (asU8 ((c : Int) + a)), s.index⟩, [], [] ++ o2,
      Exec.incr a s c hm, ?_, by simp⟩
    refine Exec.blockCons _ _ _ ⟨(s.memory.set s.index (asU8 ((c : Int) + a))).set s.index
      (asU8 ((asU8 ((c : Int) + a) : Int) + b)), s.index⟩ s2 [] o2 ?_ ?_
    · exact Exec.incr b _ (asU8 ((c : Int) + a)) (List.getElem?_set_self hlen)
    · show Exec (Node.block tail) _ s2 o2
      rw [List.set_set, asU8_cast_shift ((c : Int) + a) b, Int.add_assoc]
      exact h2

/-- Merging two adjacent `Move` nodes preserves meaning. -/
theorem exec_merge_move (a b : Int) (tail : List Node) (s s2 : State) (o : List Nat) :
    Exec (Node.block (Node.move a :: Node.move b :: tail)) s s2 o ↔
      Exec (Node.block (Node.move (a + b) :: tail)) s s2 o := by
  rw [exec_block_cons_iff, exec_block_cons_iff]
  constructor
  · rintro ⟨s1, o1, o2, h1, h2, rfl⟩
    rw [exec_move_iff] at h1
    obtain ⟨rfl, rfl⟩ := h1
    rw [exec_block_cons_iff] at h2
    obtain ⟨s1', o1', o2', h1', h2', rfl⟩ := h2
    rw [exec_move_iff] at h1'
    obtain ⟨rfl, rfl⟩ := h1'
    dsimp only at h2'
    rw [asUsize_cast_shift ((s.index : Int) + a) b, Int.add_assoc] at h2'
    exact ⟨⟨s.memory, asUsize ((s.index : Int) + (a + b))⟩, [], o2',
      Exec.move (a + b) s, h2', by simp⟩
  · rintro ⟨s1, o1, o2, h1, h2, rfl⟩
    rw [exec_move_iff] at h1
    obtain ⟨rfl, rfl⟩ := h1
    refine ⟨⟨s.memory, asUsize ((s.index : Int) + a)⟩, [], [] ++ o2, Exec.move a s, ?_, by simp⟩
    refine Exec.blockCons _ _ _ ⟨s.memory,
      asUsize ((asUsize ((s.index : Int) + a) : Int) + b)⟩ s2 [] o2 (Exec.move b _) ?_
    show Exec (Node.block tail) _ s2 o2
    rw [asUsize_cast_shift ((s.index : Int) + a) b, Int.add_assoc]
    exact h2

/-- Folding the maximal runs of a sibling list preserves meaning. -/
theorem exec_foldRuns (l : List Node) :
    ∀ s s2 o, Exec (Node.block (foldRuns l)) s s2 o ↔ Exec (Node.block l) s s2 o := by
  induction l with
  | nil => intro s s2 o; exact Iff.rfl
  | cons x rest ih =>
    intro s s2 o
    cases x with
    | incr v =>
      rcases ht : foldRuns rest with _ | ⟨n, out⟩
      · rw [show foldRuns (Node.incr v :: rest) = Node.incr v :: foldRuns rest by
          simp [foldRuns, ht]]
        exact exec_block_congr_tail ih (Node.incr v) s s2 o
      · cases n with
        | incr w =>
          rw [show foldRuns (Node.incr v :: rest) = Node.incr (v + w) :: out by
            simp [foldRuns, ht]]
          rw [← exec_merge_incr v w out]
          have hiff : ∀ s s2 o, Exec (Node.block (Node.incr w :: out)) s s2 o ↔
              Exec (Node.block rest) s s2 o := by
            intro s s2 o
            rw [← ht]
            exact ih s s2 o
          exact exec_block_congr_tail hiff (Node.incr v) s s2 o
        | move w =>
          rw [show foldRuns (Node.incr v :: rest) = Node.incr v :: foldRuns rest by
            simp [foldRuns, ht]]
          exact exec_block_congr_tail ih (Node.incr v) s s2 o
        | write =>
          rw [show foldRuns (Node.incr v :: rest) = Node.incr v :: foldRuns rest by
            simp [foldRuns, ht]]
          exact exec_block_congr_tail ih (Node.incr v) s s2 o
        | loop b =>
          rw [show foldRuns (Node.incr v :: rest) = Node.incr v :: foldRuns rest by
            simp [foldRuns, ht]]
          exact exec_block_congr_tail ih (Node.incr v) s s2 o
        | block bs =>
          rw [show foldRuns (Node.incr v :: rest) = Node.incr v :: foldRuns rest by
            simp [foldRuns, ht]]
          exact exec_block_congr_tail ih (Node.incr v) s s2 o
    | move v =>
      rcases ht : foldRuns rest with _ | ⟨n, out⟩
      · rw [show foldRuns (Node.move v :: rest) = Node.move v :: foldRuns rest by
          simp [foldRuns, ht]]
        exact exec_block_congr_tail ih (Node.move v) s s2 o
      · cases n with
        | incr w =>
          rw [show foldRuns (Node.move v :: rest) = Node.move v :: foldRuns rest by
            simp [foldRuns, ht]]
          exact exec_block_congr_tail ih (Node.move v) s s2 o
        | move w =>
          rw [show foldRuns (Node.move v :: rest) = Node.move (v + w) :: out by
            simp [foldRuns, ht]]
          rw [← exec_merge_move v w out]
          have hiff : ∀ s s2 o, Exec (Node.block (Node.move w :: out)) s s2 o ↔
              Exec (Node.block rest) s s2 o := by
            intro s s2 o
            rw [← ht]
            exact ih s s2 o
          exact exec_block_congr_tail hiff (Node.move v) s s2 o
        | write =>
          rw [show foldRuns (Node.move v :: rest) = Node.move v :: foldRuns rest by
            simp [foldRuns, ht]]
          exact exec_block_congr_tail ih (Node.move v) s s2 o
        | loop b =>
          rw [show foldRuns (Node.move v :: rest) = Node.move v :: foldRuns rest by
            simp [foldRuns, ht]]
          exact exec_block_congr_tail ih (Node.move v) s s2 o
        | block bs =>
          rw [show foldRuns (Node.move v :: rest) = Node.move v :: foldRuns rest by
            simp [foldRuns, ht]]
          exact exec_block_congr_tail ih (Node.move v) s s2 o
    | write =>
      rw [show foldRuns (Node.write :: rest) = Node.write :: foldRuns rest from rfl]
      exact exec_block_congr_tail ih Node.write s s2 o
    | loop b =>
      rw [show foldRuns (Node.loop b :: rest) = Node.loop b :: foldRuns rest from rfl]
      exact exec_block_congr_tail ih (Node.loop b) s s2 o
    | block bs =>
      rw [show foldRuns (Node.block bs :: rest) = Node.block bs :: foldRuns rest from rfl]
      exact exec_block_congr_tail ih (Node.block bs) s s2 o

/-- Replacing a loop body by an equivalent body preserves meaning
(one direction). -/
theorem exec_loop_congr_aux {b b2 : Node}
    (hb : ∀ s s2 o, Exec b s s2 o ↔ Exec b2 s s2 o) :
    ∀ {t : Node} {s s2 : State} {o : List Nat}, Exec t s s2 o → t = Node.loop b →
      Exec (Node.loop b2) s s2 o := by
  intro t s s2 o h
  induction h with
  | incr v s c hm => exact fun he => Node.noConfusion he
  | move v s => exact fun he => Node.noConfusion he
  | write s c hm => exact fun he => Node.noConfusion he
  | blockNil s => exact fun he => Node.noConfusion he
  | blockCons n ns s s1 s2 o1 o2 h1 h2 ih1 ih2 => exact fun he => Node.noConfusion he
  | loopDone b0 s hm => exact fun he => Exec.loopDone b2 s hm
  | loopStep b0 s s1 s2 c o1 o2 hm hc hbody hrest ihb ihrest =>
    intro he
    injection he with hb0
    subst hb0
    exact Exec.loopStep b2 s s1 s2 c o1 o2 hm hc ((hb s s1 o1).mp hbody) (ihrest rfl)

/-- Replacing a loop body by an equivalent body preserves meaning. -/
theorem exec_loop_congr {b b2 : Node}
    (hb : ∀ s s2 o, Exec b s s2 o ↔ Exec b2 s s2 o) (s s2 : State) (o : List Nat) :
    Exec (Node.loop b) s s2 o ↔ Exec (Node.loop b2) s s2 o := by
  constructor
  · intro h
    exact exec_loop_congr_aux hb h rfl
  · intro h
    exact exec_loop_congr_aux (fun s s2 o => (hb s s2 o).symm) h rfl

/-- Replacing every child of a block by an equivalent child preserves
meaning. -/
theorem exec_block_map_opt (ns : List Node)
    (hns : ∀ n ∈ ns, ∀ s s2 o, Exec n s s2 o ↔ Exec (optimize_ast n) s s2 o) :
    ∀ s s2 o, Exec (Node.block ns) s s2 o ↔
      Exec (Node.block (ns.map optimize_ast)) s s2 o := by
  induction ns with
  | nil => intro s s2 o; exact Iff.rfl
  | cons n rest ih =>
    intro s s2 o
    rw [List.map_cons]
    rw [exec_block_cons_iff, exec_block_cons_iff]
    constructor
    · rintro ⟨s1, o1, o2, h1, h2, rfl⟩
      exact ⟨s1, o1, o2, (hns n (List.mem_cons_self n rest) s s1 o1).mp h1,
        (ih (fun m hm => hns m (List.mem_cons_of_mem n hm)) s1 s2 o2).mp h2, rfl⟩
    · rintro ⟨s1, o1, o2, h1, h2, rfl⟩
      exact ⟨s1, o1, o2, (hns n (List.mem_cons_self n rest) s s1 o1).mpr h1,
        (ih (fun m hm => hns m (List.mem_cons_of_mem n hm)) s1 s2 o2).mpr h2, rfl⟩

/-- Members of a list whose `nzListB` holds satisfy `nzB`. -/
theorem nzListB_mem {ns : List Node} (h : nzListB ns = true) :
    ∀ n ∈ ns, nzB n = true := by
  induction ns with
  | nil => intro n hn; cases hn
  | cons x rest ih =>
    intro n hn
    simp only [nzListB, Bool.and_eq_true] at h
    rcases List.mem_cons.mp hn with rfl | hn
    · exact h.1
    · exact ih h.2 n hn

/-- On trees with no zero-delta leaves, one optimizer pass preserves the
big-step meaning. -/
theorem exec_optimize {t : Node} (hnz : nzB t = true) :
    ∀ s s2 o, Exec t s s2 o ↔ Exec (optimize_ast t) s s2 o := by
  induction t using Node.recMem with
  | hincr v =>
    intro s s2 o
    have hv : ¬(v = 0) := by simpa [nzB] using hnz
    rw [show optimize_ast (Node.incr v) = Node.incr v by simp [optimize_ast, hv]]
  | hmove v =>
    intro s s2 o
    have hv : ¬(v = 0) := by simpa [nzB] using hnz
    rw [show optimize_ast (Node.move v) = Node.move v by simp [optimize_ast, hv]]
  | hwrite => intro s s2 o; exact Iff.rfl
  | hloop b ihb =>
    intro s s2 o
    have hnzb : nzB b = true := by simpa [nzB] using hnz
    exact exec_loop_congr (ihb hnzb) s s2 o
  | hblock ns ihns =>
    intro s s2 o
    have hnzns : nzListB ns = true := by simpa [nzB] using hnz
    rw [optimize_block, exec_collapse1, exec_foldRuns]
    exact exec_block_map_opt ns (fun n hn => ihns n hn (nzListB_mem hnzns n hn)) s s2 o

/-! ## The builder only produces unit (nonzero) deltas -/

theorem nzListB_append (l1 l2 : List Node) :
    nzListB (l1 ++ l2) = (nzListB l1 && nzListB l2) := by
  induction l1 with
  | nil => simp [nzListB]
  | cons x t ih => simp [nzListB, ih, Bool.and_assoc]

/-- The builder invariant: every sibling list held in the accumulator, on
the live list or suspended on the stack, contains only nonzero-delta
nodes. -/
theorem buildFold_nz (ts : List Token) :
    ∀ (acc : List Node × List (List Node)),
      nzListB acc.1 = true → (∀ l ∈ acc.2, nzListB l = true) →
      ∀ r, ts.foldlM buildStep acc = some r →
        nzListB r.1 = true ∧ ∀ l ∈ r.2, nzListB l = true := by
  induction ts with
  | nil =>
    intro acc h1 h2 r hr
    simp only [List.foldlM] at hr
    cases hr
    exact ⟨h1, h2⟩
  | cons tok rest ih =>
    intro acc h1 h2 r hr
    simp only [List.foldlM] at hr
    cases hstep : buildStep acc tok with
    | none => rw [hstep] at hr; cases hr
    | some acc1 =>
      rw [hstep] at hr
      obtain ⟨ops, stack⟩ := acc
      simp only at h1 h2
      have hpres : nzListB acc1.1 = true ∧ ∀ l ∈ acc1.2, nzListB l = true := by
        cases tok with
        | decr =>
          simp only [buildStep] at hstep
          cases hstep
          exact ⟨by simp [nzListB_append, nzListB, nzB, h1], h2⟩
        | incr =>
          simp only [buildStep] at hstep
          cases hstep
          exact ⟨by simp [nzListB_append, nzListB, nzB, h1], h2⟩
        | moveLeft =>
          simp only [buildStep] at hstep
          cases hstep
          exact ⟨by simp [nzListB_append, nzListB, nzB, h1], h2⟩
        | moveRight =>
          simp only [buildStep] at hstep
          cases hstep
          exact ⟨by simp [nzListB_append, nzListB, nzB, h1], h2⟩
        | write =>
          simp only [buildStep] at hstep
          cases hstep
          exact ⟨by simp [nzListB_append, nzListB, nzB, h1], h2⟩
        | loopBegin =>
          simp only [buildStep] at hstep
          cases hstep
          refine ⟨rfl, ?_⟩
          intro l hl
          rcases List.mem_cons.mp hl with rfl | hl
          · exact h1
          · exact h2 l hl
        | loopEnd =>
          simp only [buildStep] at hstep
          cases stack with
          | nil => cases hstep
          | cons prev srest =>
            cases hstep
            have hprev : nzListB prev = true := h2 prev (List.mem_cons_self prev srest)
            refine ⟨by simp [nzListB_append, nzListB, nzB, hprev, h1], ?_⟩
            intro l hl
            exact h2 l (List.mem_cons_of_mem prev hl)
      exact ih acc1 hpres.1 hpres.2 r hr

theorem nzB_collapse1 {l : List Node} (h : nzListB l = true) :
    nzB (collapse1 l) = true := by
  match l with
  | [] => exact rfl
  | [n] =>
    simp only [nzListB, Bool.and_eq_true] at h
    exact h.1
  | a :: b :: t => exact h

/-- Every AST the builder returns has only nonzero (unit) deltas. -/
theorem build_nz {ts : List Token} {t : Node} (h : build_ast ts = some t) :
    nzB t = true := by
  unfold build_ast at h
  cases hf : ts.foldlM buildStep ([], []) with
  | none => rw [hf] at h; cases h
  | some r =>
    rw [hf] at h
    obtain ⟨hops, _⟩ := buildFold_nz ts ([], []) rfl (by intro l hl; cases hl) r hf
    have hts : some (collapse1 r.1) = some t := h
    injection hts with hts
    subst hts
    exact nzB_collapse1 hops

/-! ## Normal forms of the optimizer (for idempotence analysis) -/

theorem sameKindB_eq_of_kinds {x y : Node} (hI : isIncrB x = isIncrB y)
    (hM : isMoveB x = isMoveB y) (z : Node) : sameKindB x z = sameKindB y z := by
  simp [sameKindB, hI, hM]

theorem noAdjB_cons_kind {x y : Node} (hI : isIncrB x = isIncrB y)
    (hM : isMoveB x = isMoveB y) (l : List Node) :
    noAdjB (x :: l) = noAdjB (y :: l) := by
  cases l with
  | nil => rfl
  | cons a t => simp [noAdjB, sameKindB_eq_of_kinds hI hM a]

/-- The run folding leaves no mergeable adjacent pair behind. -/
theorem noAdjB_foldRuns (l : List Node) : noAdjB (foldRuns l) = true := by
  induction l with
  | nil => rfl
  | cons x rest ih =>
    cases x with
    | incr v =>
      rcases ht : foldRuns rest with _ | ⟨n, out⟩
      · rw [show foldRuns (Node.incr v :: rest) = [Node.incr v] by simp [foldRuns, ht]]
        rfl
      · cases n with
        | incr w =>
          rw [show foldRuns (Node.incr v :: rest) = Node.incr (v + w) :: out by
            simp [foldRuns, ht]]
          rw [noAdjB_cons_kind (x := Node.incr (v + w)) (y := Node.incr w) rfl rfl out, ← ht]
          exact ih
        | move w =>
          rw [show foldRuns (Node.incr v :: rest) = Node.incr v :: Node.move w :: out by
            simp [foldRuns, ht]]
          rw [show noAdjB (Node.incr v :: Node.move w :: out) =
            noAdjB (Node.move w :: out) by simp [noAdjB, sameKindB, isIncrB, isMoveB]]
          rw [← ht]
          exact ih
        | write =>
          rw [show foldRuns (Node.incr v :: rest) = Node.incr v :: Node.write :: out by
            simp [foldRuns, ht]]
          rw [show noAdjB (Node.incr v :: Node.write :: out) =
            noAdjB (Node.write :: out) by simp [noAdjB, sameKindB, isIncrB, isMoveB]]
          rw [← ht]
          exact ih
        | loop b =>
          rw [show foldRuns (Node.incr v :: rest) = Node.incr v :: Node.loop b :: out by
            simp [foldRuns, ht]]
          rw [show noAdjB (Node.incr v :: Node.loop b :: out) =
            noAdjB (Node.loop b :: out) by simp [noAdjB, sameKindB, isIncrB, isMoveB]]
          rw [← ht]
          exact ih
        | block bs =>
          rw [show foldRuns (Node.incr v :: rest) = Node.incr v :: Node.block bs :: out by
            simp [foldRuns, ht]]
          rw [show noAdjB (Node.incr v :: Node.block bs :: out) =
            noAdjB (Node.block bs :: out) by simp [noAdjB, sameKindB, isIncrB, isMoveB]]
          rw [← ht]
          exact ih
    | move v =>
      rcases ht : foldRuns rest with _ | ⟨n, out⟩
      · rw [show foldRuns (Node.move v :: rest) = [Node.move v] by simp [foldRuns, ht]]
        rfl
      · cases n with
        | incr w =>
          rw [show foldRuns (Node.move v :: rest) = Node.move v :: Node.incr w :: out by
            simp [foldRuns, ht]]
          rw [show noAdjB (Node.move v :: Node.incr w :: out) =
            noAdjB (Node.incr w :: out) by simp [noAdjB, sameKindB, isIncrB, isMoveB]]
          rw [← ht]
          exact ih
        | move w =>
          rw [show foldRuns (Node.move v :: rest) = Node.move (v + w) :: out by
            simp [foldRuns, ht]]
          rw [noAdjB_cons_kind (x := Node.move (v + w)) (y := Node.move w) rfl rfl out, ← ht]
          exact ih
        | write =>
          rw [show foldRuns (Node.move v :: rest) = Node.move v :: Node.write :: out by
            simp [foldRuns, ht]]
          rw [show noAdjB (Node.move v :: Node.write :: out) =
            noAdjB (Node.write :: out) by simp [noAdjB, sameKindB, isIncrB, isMoveB]]
          rw [← ht]
          exact ih
        | loop b =>
          rw [show foldRuns (Node.move v :: rest) = Node.move v :: Node.loop b :: out by
            simp [foldRuns, ht]]
          rw [show noAdjB (Node.move v :: Node.loop b :: out) =
            noAdjB (Node.loop b :: out) by simp [noAdjB, sameKindB, isIncrB, isMoveB]]
          rw [← ht]
          exact ih
        | block bs =>
          rw [show foldRuns (Node.move v :: rest) = Node.move v :: Node.block bs :: out by
            simp [foldRuns, ht]]
          rw [show noAdjB (Node.move v :: Node.block bs :: out) =
            noAdjB (Node.block bs :: out) by simp [noAdjB, sameKindB, isIncrB, isMoveB]]
          rw [← ht]
          exact ih
    | write =>
      rw [show foldRuns (Node.write :: rest) = Node.write :: foldRuns rest from rfl]
      rcases ht : foldRuns rest with _ | ⟨n, out⟩
      · rfl
      · rw [show noAdjB (Node.write :: n :: out) = noAdjB (n :: out) by
          simp [noAdjB, sameKindB, isIncrB, isMoveB], ← ht]
        exact ih
    | loop b =>
      rw [show foldRuns (Node.loop b :: rest) = Node.loop b :: foldRuns rest from rfl]
      rcases ht : foldRuns rest with _ | ⟨n, out⟩
      · rfl
      · rw [show noAdjB (Node.loop b :: n :: out) = noAdjB (n :: out) by
          simp [noAdjB, sameKindB, isIncrB, isMoveB], ← ht]
        exact ih
    | block bs =>
      rw [show foldRuns (Node.block bs :: rest) = Node.block bs :: foldRuns rest from rfl]
      rcases ht : foldRuns rest with _ | ⟨n, out⟩
      · rfl
      · rw [show noAdjB (Node.block bs :: n :: out) = noAdjB (n :: out) by
          simp [noAdjB, sameKindB, isIncrB, isMoveB], ← ht]
        exact ih

/-- The run folding preserves elementwise `invB`. -/
theorem invListB_foldRuns {l : List Node} (h : invListB l = true) :
    invListB (foldRuns l) = true := by
  induction l with
  | nil => exact h
  | cons x rest ih =>
    simp only [invListB, Bool.and_eq_true] at h
    have ihr := ih h.2
    cases x with
    | incr v =>
      rcases ht : foldRuns rest with _ | ⟨n, out⟩
      · rw [show foldRuns (Node.incr v :: rest) = [Node.incr v] by simp [foldRuns, ht]]
        rfl
      · rw [ht] at ihr
        cases n with
        | incr w =>
          rw [show foldRuns (Node.incr v :: rest) = Node.incr (v + w) :: out by
            simp [foldRuns, ht]]
          simp only [invListB, invB, Bool.and_eq_true] at ihr ⊢
          exact ⟨trivial, ihr.2⟩
        | move w =>
          rw [show foldRuns (Node.incr v :: rest) = Node.incr v :: Node.move w :: out by
            simp [foldRuns, ht]]
          simp only [invListB, invB, Bool.and_eq_true] at ihr ⊢
          exact ⟨trivial, ihr⟩
        | write =>
          rw [show foldRuns (Node.incr v :: rest) = Node.incr v :: Node.write :: out by
            simp [foldRuns, ht]]
          simp only [invListB, invB, Bool.and_eq_true] at ihr ⊢
          exact ⟨trivial, ihr⟩
        | loop b =>
          rw [show foldRuns (Node.incr v :: rest) = Node.incr v :: Node.loop b :: out by
            simp [foldRuns, ht]]
          simp only [invListB, invB, Bool.and_eq_true] at ihr ⊢
          exact ⟨trivial, ihr⟩
        | block bs =>
          rw [show foldRuns (Node.incr v :: rest) = Node.incr v :: Node.block bs :: out by
            simp [foldRuns, ht]]
          simp only [invListB, invB, Bool.and_eq_true] at ihr ⊢
          exact ⟨trivial, ihr⟩
    | move v =>
      rcases ht : foldRuns rest with _ | ⟨n, out⟩
      · rw [show foldRuns (Node.move v :: rest) = [Node.move v] by simp [foldRuns, ht]]
        rfl
      · rw [ht] at ihr
        cases n with
        | incr w =>
          rw [show foldRuns (Node.move v :: rest) = Node.move v :: Node.incr w :: out by
            simp [foldRuns, ht]]
          simp only [invListB, invB, Bool.and_eq_true] at ihr ⊢
          exact ⟨trivial, ihr⟩
        | move w =>
          rw [show foldRuns (Node.move v :: rest) = Node.move (v + w) :: out by
            simp [foldRuns, ht]]
          simp only [invListB, invB, Bool.and_eq_true] at ihr ⊢
          exact ⟨trivial, ihr.2⟩
        | write =>
          rw [show foldRuns (Node.move v :: rest) = Node.move v :: Node.write :: out by
            simp [foldRuns, ht]]
          simp only [invListB, invB, Bool.and_eq_true] at ihr ⊢
          exact ⟨trivial, ihr⟩
        | loop b =>
          rw [show foldRuns (Node.move v :: rest) = Node.move v :: Node.loop b :: out by
            simp [foldRuns, ht]]
          simp only [invListB, invB, Bool.and_eq_true] at ihr ⊢
          exact ⟨trivial, ihr⟩
        | block bs =>
          rw [show foldRuns (Node.move v :: rest) = Node.move v :: Node.block bs :: out by
            simp [foldRuns, ht]]
          simp only [invListB, invB, Bool.and_eq_true] at ihr ⊢
          exact ⟨trivial, ihr⟩
    | write =>
      rw [show foldRuns (Node.write :: rest) = Node.write :: foldRuns rest from rfl]
      simp only [invListB, Bool.and_eq_true]
      exact ⟨h.1, ihr⟩
    | loop b =>
      rw [show foldRuns (Node.loop b :: rest) = Node.loop b :: foldRuns rest from rfl]
      simp only [invListB, Bool.and_eq_true]
      exact ⟨h.1, ihr⟩
    | block bs =>
      rw [show foldRuns (Node.block bs :: rest) = Node.block bs :: foldRuns rest from rfl]
      simp only [invListB, Bool.and_eq_true]
      exact ⟨h.1, ihr⟩

theorem invB_collapse1 {l : List Node} (h1 : invListB l = true) (h2 : noAdjB l = true) :
    invB (collapse1 l) = true := by
  match l with
  | [] => rfl
  | [n] =>
    simp only [invListB, Bool.and_eq_true] at h1
    exact h1.1
  | a :: b :: t =>
    show invB (Node.block (a :: b :: t)) = true
    simp only [invB, Bool.and_eq_true]
    refine ⟨⟨?_, h2⟩, h1⟩
    simp [List.length_cons]

theorem invListB_map_opt {ns : List Node}
    (h : ∀ n ∈ ns, invB (optimize_ast n) = true) :
    invListB (ns.map optimize_ast) = true := by
  induction ns with
  | nil => rfl
  | cons x rest ih =>
    simp only [List.map_cons, invListB, Bool.and_eq_true]
    exact ⟨h x (List.mem_cons_self x rest),
      ih fun n hn => h n (List.mem_cons_of_mem x hn)⟩

/-- Every optimizer output is in block normal form: no length-1 block, no
mergeable adjacent pair. -/
theorem invB_optimize : ∀ t, invB (optimize_ast t) = true := by
  intro t
  induction t using Node.recMem with
  | hincr v =>
    by_cases hv : v = 0
    · subst hv
      rfl
    · rw [show optimize_ast (Node.incr v) = Node.incr v by simp [optimize_ast, hv]]
      rfl
  | hmove v =>
    by_cases hv : v = 0
    · subst hv
      rfl
    · rw [show optimize_ast (Node.move v) = Node.move v by simp [optimize_ast, hv]]
      rfl
  | hwrite => rfl
  | hloop b ihb =>
    rw [show optimize_ast (Node.loop b) = Node.loop (optimize_ast b) from rfl]
    exact ihb
  | hblock ns ihns =>
    rw [optimize_block]
    exact invB_collapse1 (invListB_foldRuns (invListB_map_opt ihns))
      (noAdjB_foldRuns (ns.map optimize_ast))

/-- Generic cons equations for `foldRuns`, with an opaque tail. -/
theorem foldRuns_cons_incr_nil {rest : List Node} (hf : foldRuns rest = []) (v : Int) :
    foldRuns (Node.incr v :: rest) = [Node.incr v] := by
  simp [foldRuns, hf]

theorem foldRuns_cons_incr_merge {rest out : List Node} {w : Int}
    (hf : foldRuns rest = Node.incr w :: out) (v : Int) :
    foldRuns (Node.incr v :: rest) = Node.incr (v + w) :: out := by
  simp [foldRuns, hf]

theorem foldRuns_cons_incr_head {rest out : List Node} {n : Node}
    (hf : foldRuns rest = n :: out) (hn : isIncrB n = false) (v : Int) :
    foldRuns (Node.incr v :: rest) = Node.incr v :: n :: out := by
  cases n <;> simp_all [foldRuns, isIncrB]

theorem foldRuns_cons_move_nil {rest : List Node} (hf : foldRuns rest = []) (v : Int) :
    foldRuns (Node.move v :: rest) = [Node.move v] := by
  simp [foldRuns, hf]

theorem foldRuns_cons_move_merge {rest out : List Node} {w : Int}
    (hf : foldRuns rest = Node.move w :: out) (v : Int) :
    foldRuns (Node.move v :: rest) = Node.move (v + w) :: out := by
  simp [foldRuns, hf]

theorem foldRuns_cons_move_head {rest out : List Node} {n : Node}
    (hf : foldRuns rest = n :: out) (hn : isMoveB n = false) (v : Int) :
    foldRuns (Node.move v :: rest) = Node.move v :: n :: out := by
  cases n <;> simp_all [foldRuns, isMoveB]

theorem foldRuns_cons_other {x : Node} (hI : isIncrB x = false) (hM : isMoveB x = false)
    (rest : List Node) : foldRuns (x :: rest) = x :: foldRuns rest := by
  cases x <;> simp_all [foldRuns, isIncrB, isMoveB]

/-- Folding runs is the identity on lists with no mergeable adjacent pair. -/
theorem foldRuns_id {l : List Node} (h : noAdjB l = true) : foldRuns l = l := by
  induction l with
  | nil => rfl
  | cons x rest ih =>
    have hrest : noAdjB rest = true := by
      cases rest with
      | nil => rfl
      | cons y t =>
        simp only [noAdjB, Bool.and_eq_true] at h
        exact h.2
    have hfr : foldRuns rest = rest := ih hrest
    cases x with
    | incr v =>
      cases rest with
      | nil => exact foldRuns_cons_incr_nil hfr v
      | cons y t =>
        simp only [noAdjB, Bool.and_eq_true] at h
        cases y with
        | incr w => simp [sameKindB, isIncrB, isMoveB] at h
        | move w => exact foldRuns_cons_incr_head hfr rfl v
        | write => exact foldRuns_cons_incr_head hfr rfl v
        | loop b => exact foldRuns_cons_incr_head hfr rfl v
        | block bs => exact foldRuns_cons_incr_head hfr rfl v
    | move v =>
      cases rest with
      | nil => exact foldRuns_cons_move_nil hfr v
      | cons y t =>
        simp only [noAdjB, Bool.and_eq_true] at h
        cases y with
        | incr w => exact foldRuns_cons_move_head hfr rfl v
        | move w => simp [sameKindB, isIncrB, isMoveB] at h
        | write => exact foldRuns_cons_move_head hfr rfl v
        | loop b => exact foldRuns_cons_move_head hfr rfl v
        | block bs => exact foldRuns_cons_move_head hfr rfl v
    | write => rw [foldRuns_cons_other (x := Node.write) rfl rfl, hfr]
    | loop b => rw [foldRuns_cons_other (x := Node.loop b) rfl rfl, hfr]
    | block bs => rw [foldRuns_cons_other (x := Node.block bs) rfl rfl, hfr]

theorem collapse1_of_len_ne_one {l : List Node} (h : l.length ≠ 1) :
    collapse1 l = Node.block l := by
  match l with
  | [] => rfl
  | [n] => exact absurd rfl h
  | a :: b :: t => rfl

theorem elimZList_id {ns : List Node} (h : ∀ n ∈ ns, elimZ n = n) : elimZList ns = ns := by
  induction ns with
  | nil => rfl
  | cons x t ih =>
    show elimZ x :: elimZList t = x :: t
    rw [h x (List.mem_cons_self x t), ih fun n hn => h n (List.mem_cons_of_mem x hn)]

theorem elimZList_eq_map (l : List Node) : elimZList l = l.map elimZ := by
  induction l with
  | nil => rfl
  | cons x t ih => simp [elimZList, ih]

theorem elimZList_length (l : List Node) : (elimZList l).length = l.length := by
  rw [elimZList_eq_map, List.length_map]

/-- `elimZ` only ever turns a node into a `Block`; it never creates an
`Incr` or `Move`. -/
theorem isIncrB_elimZ {x : Node} (h : isIncrB (elimZ x) = true) : isIncrB x = true := by
  cases x with
  | incr v =>
    rfl
  | move v =>
    by_cases hv : v = 0 <;> simp [elimZ, hv, isIncrB] at h
  | write => simp [elimZ, isIncrB] at h
  | loop b => simp [elimZ, isIncrB] at h
  | block ns => simp [elimZ, isIncrB] at h

theorem isMoveB_elimZ {x : Node} (h : isMoveB (elimZ x) = true) : isMoveB x = true := by
  cases x with
  | move v =>
    rfl
  | incr v =>
    by_cases hv : v = 0 <;> simp [elimZ, hv, isMoveB] at h
  | write => simp [elimZ, isMoveB] at h
  | loop b => simp [elimZ, isMoveB] at h
  | block ns => simp [elimZ, isMoveB] at h

theorem sameKindB_elimZ {a b : Node} (h : sameKindB (elimZ a) (elimZ b) = true) :
    sameKindB a b = true := by
  simp only [sameKindB, Bool.or_eq_true, Bool.and_eq_true] at h ⊢
  rcases h with ⟨ha, hb⟩ | ⟨ha, hb⟩
  · exact Or.inl ⟨isIncrB_elimZ ha, isIncrB_elimZ hb⟩
  · exact Or.inr ⟨isMoveB_elimZ ha, isMoveB_elimZ hb⟩

theorem noAdjB_elimZList {l : List Node} (h : noAdjB l = true) :
    noAdjB (elimZList l) = true := by
  induction l with
  | nil => rfl
  | cons x rest ih =>
    cases rest with
    | nil => rfl
    | cons y t =>
      simp only [noAdjB, Bool.and_eq_true] at h
      show noAdjB (elimZ x :: elimZ y :: elimZList t) = true
      have htail : noAdjB (elimZ y :: elimZList t) = true := ih h.2
      simp only [noAdjB, Bool.and_eq_true]
      refine ⟨?_, htail⟩
      by_cases hsk : sameKindB (elimZ x) (elimZ y) = true
      · have := sameKindB_elimZ hsk
        rw [this] at h
        simp at h
      · simp only [Bool.not_eq_true] at hsk
        rw [hsk]
        rfl

/-- On a tree in block normal form, one optimizer pass only eliminates
zero-delta leaves. -/
theorem optimize_of_invB : ∀ {t : Node}, invB t = true → optimize_ast t = elimZ t := by
  intro t
  induction t using Node.recMem with
  | hincr v => intro hInv; rfl
  | hmove v => intro hInv; rfl
  | hwrite => intro hInv; rfl
  | hloop b ihb =>
    intro hInv
    show Node.loop (optimize_ast b) = Node.loop (elimZ b)
    rw [ihb hInv]
  | hblock ns ihns =>
    intro hInv
    simp only [invB, Bool.and_eq_true, bne_iff_ne, ne_eq] at hInv
    obtain ⟨⟨hlen, hadj⟩, hinv⟩ := hInv
    have hinvmem : ∀ n ∈ ns, invB n = true := by
      clear hlen hadj ihns
      induction ns with
      | nil => intro n hn; cases hn
      | cons x t iht =>
        intro n hn
        simp only [invListB, Bool.and_eq_true] at hinv
        rcases List.mem_cons.mp hn with rfl | hn
        · exact hinv.1
        · exact iht hinv.2 n hn
    have hmap : ns.map optimize_ast = elimZList ns := by
      rw [elimZList_eq_map]
      exact List.map_congr_left fun n hn => ihns n hn (hinvmem n hn)
    rw [optimize_block, hmap, foldRuns_id (noAdjB_elimZList hadj),
      collapse1_of_len_ne_one (by rw [elimZList_length]; exact hlen)]
    rfl

/-- `elimZ` output has no zero-delta leaves. -/
theorem nzB_elimZ : ∀ t, nzB (elimZ t) = true := by
  intro t
  induction t using Node.recMem with
  | hincr v =>
    by_cases hv : v = 0
    · subst hv
      rfl
    · simp [elimZ, hv, nzB]
  | hmove v =>
    by_cases hv : v = 0
    · subst hv
      rfl
    · simp [elimZ, hv, nzB]
  | hwrite => rfl
  | hloop b ihb => exact ihb
  | hblock ns ihns =>
    show nzListB (elimZList ns) = true
    induction ns with
    | nil => rfl
    | cons x t iht =>
      show (nzB (elimZ x) && nzListB (elimZList t)) = true
      rw [ihns x (List.mem_cons_self x t),
        iht fun n hn => ihns n (List.mem_cons_of_mem x hn)]
      rfl

/-- `elimZ` is the identity on trees with no zero-delta leaves. -/
theorem elimZ_of_nzB : ∀ {t : Node}, nzB t = true → elimZ t = t := by
  intro t
  induction t using Node.recMem with
  | hincr v =>
    intro h
    have hv : v ≠ 0 := by simpa [nzB] using h
    simp [elimZ, hv]
  | hmove v =>
    intro h
    have hv : v ≠ 0 := by simpa [nzB] using h
    simp [elimZ, hv]
  | hwrite => intro h; rfl
  | hloop b ihb =>
    intro h
    show Node.loop (elimZ b) = Node.loop b
    rw [ihb (by simpa [nzB] using h)]
  | hblock ns ihns =>
    intro h
    show Node.block (elimZList ns) = Node.block ns
    have hns : nzListB ns = true := h
    have hmem := nzListB_mem hns
    congr 1
    exact elimZList_id fun n hn => ihns n hn (hmem n hn)

/-- After two passes the optimizer reaches a fixed point. -/
theorem optimize_third_pass_id (t : Node) :
    optimize_ast (optimize_ast (optimize_ast t)) = optimize_ast (optimize_ast t) := by
  have h2 : optimize_ast (optimize_ast t) = elimZ (optimize_ast t) :=
    optimize_of_invB (invB_optimize t)
  rw [h2, optimize_of_invB (invB_optimize (optimize_ast t) ▸
    (h2 ▸ invB_optimize (optimize_ast t) : invB (elimZ (optimize_ast t)) = true)),
    elimZ_of_nzB (nzB_elimZ (optimize_ast t))]

/-! ## Round-trip through the esolang emitter -/

/-- Lexing a character replicate of a unit symbol. -/
theorem parse_replicate (c : Char) (tok : Token)
    (hc : (match c with
      | '+' => some Token.incr
      | '-' => some Token.decr
      | '<' => some Token.moveLeft
      | '>' => some Token.moveRight
      | '.' => some Token.write
      | '[' => some Token.loopBegin
      | ']' => some Token.loopEnd
      | _ => none) = some tok) (k : Nat) :
    parse_source (List.replicate k c) = List.replicate k tok := by
  induction k with
  | zero => rfl
  | succ k ih =>
    rw [List.replicate_succ, List.replicate_succ]
    show parse_source (c :: List.replicate k c) = tok :: List.replicate k tok
    unfold parse_source at ih ⊢
    rw [List.filterMap_cons, hc, ih]

/-- The lexer maps the emitter's output to exactly the emitted token
stream. -/
theorem parse_write_bf : ∀ t, parse_source (write_bf t) = emitTok t := by
  intro t
  induction t using Node.recMem with
  | hincr v =>
    show parse_source (List.replicate v.natAbs (if v < 0 then '-' else '+')) =
      List.replicate v.natAbs (if v < 0 then Token.decr else Token.incr)
    by_cases hv : v < 0
    · simp only [hv, if_true]
      exact parse_replicate '-' Token.decr rfl v.natAbs
    · simp only [hv, if_false]
      exact parse_replicate '+' Token.incr rfl v.natAbs
  | hmove v =>
    show parse_source (List.replicate v.natAbs (if v < 0 then '<' else '>')) =
      List.replicate v.natAbs (if v < 0 then Token.moveLeft else Token.moveRight)
    by_cases hv : v < 0
    · simp only [hv, if_true]
      exact parse_replicate '<' Token.moveLeft rfl v.natAbs
    · simp only [hv, if_false]
      exact parse_replicate '>' Token.moveRight rfl v.natAbs
  | hwrite => rfl
  | hloop b ihb =>
    show parse_source ('[' :: (write_bf b ++ [']'])) =
      Token.loopBegin :: (emitTok b ++ [Token.loopEnd])
    have h1 : parse_source ('[' :: (write_bf b ++ [']'])) =
        Token.loopBegin :: parse_source (write_bf b ++ [']']) := rfl
    have h2 : parse_source (write_bf b ++ [']']) =
        parse_source (write_bf b) ++ [Token.loopEnd] := by
      unfold parse_source
      rw [List.filterMap_append]
      rfl
    rw [h1, h2, ihb]
  | hblock ns ihns =>
    show parse_source (write_bfList ns) = emitTokList ns
    induction ns with
    | nil => rfl
    | cons x t iht =>
      show parse_source (write_bf x ++ write_bfList t) = emitTok x ++ emitTokList t
      unfold parse_source
      rw [List.filterMap_append]
      have h1 := ihns x (List.mem_cons_self x t)
      have h2 := iht fun n hn => ihns n (List.mem_cons_of_mem x hn)
      unfold parse_source at h1 h2
      rw [h1, h2]

/-- Folding the builder over a replicated unit token appends the
replicated unit node. -/
theorem buildFold_replicate (tok : Token) (x : Node)
    (hstep : ∀ ops stack, buildStep (ops, stack) tok = some (ops ++ [x], stack)) :
    ∀ (k : Nat) (ops : List Node) (stack : List (List Node)),
      (List.replicate k tok).foldlM buildStep (ops, stack) =
        some (ops ++ List.replicate k x, stack) := by
  intro k
  induction k with
  | zero => intro ops stack; simp [List.foldlM]
  | succ k ih =>
    intro ops stack
    rw [List.replicate_succ]
    simp only [List.foldlM, hstep ops stack, Option.bind_eq_bind, Option.some_bind]
    rw [ih (ops ++ [x]) stack]
    simp [List.replicate_succ]

/-- Folding the builder over the emitted token stream of a node appends
the node's units; the stack is untouched. -/
theorem buildFold_emitTok : ∀ (t : Node) (ops : List Node) (stack : List (List Node)),
    (emitTok t).foldlM buildStep (ops, stack) = some (ops ++ units t, stack) := by
  intro t
  induction t using Node.recMem with
  | hincr v =>
    intro ops stack
    show (List.replicate v.natAbs (if v < 0 then Token.decr else Token.incr)).foldlM
      buildStep (ops, stack) = some (ops ++ List.replicate v.natAbs
        (Node.incr (if v < 0 then -1 else 1)), stack)
    by_cases hv : v < 0 <;> simp only [hv, if_true, if_false]
    · exact buildFold_replicate Token.decr (Node.incr (-1))
        (fun ops stack => rfl) v.natAbs ops stack
    · exact buildFold_replicate Token.incr (Node.incr 1)
        (fun ops stack => rfl) v.natAbs ops stack
  | hmove v =>
    intro ops stack
    show (List.replicate v.natAbs (if v < 0 then Token.moveLeft else Token.moveRight)).foldlM
      buildStep (ops, stack) = some (ops ++ List.replicate v.natAbs
        (Node.move (if v < 0 then -1 else 1)), stack)
    by_cases hv : v < 0 <;> simp only [hv, if_true, if_false]
    · exact buildFold_replicate Token.moveLeft (Node.move (-1))
        (fun ops stack => rfl) v.natAbs ops stack
    · exact buildFold_replicate Token.moveRight (Node.move 1)
        (fun ops stack => rfl) v.natAbs ops stack
  | hwrite => intro ops stack; rfl
  | hloop b ihb =>
    intro ops stack
    show (Token.loopBegin :: (emitTok b ++ [Token.loopEnd])).foldlM
      buildStep (ops, stack) = some (ops ++ [Node.loop (Node.block (units b))], stack)
    simp only [List.foldlM, buildStep, Option.bind_eq_bind, Option.some_bind]
    rw [List.foldlM_append, ihb [] (ops :: stack)]
    simp [List.foldlM, buildStep]
  | hblock ns ihns =>
    intro ops stack
    show (emitTokList ns).foldlM buildStep (ops, stack) = some (ops ++ unitsList ns, stack)
    induction ns generalizing ops with
    | nil => simp [List.foldlM, emitTokList, unitsList]
    | cons x t iht =>
      show (emitTok x ++ emitTokList t).foldlM buildStep (ops, stack) =
        some (ops ++ (units x ++ unitsList t), stack)
      rw [List.foldlM_append, ihns x (List.mem_cons_self x t) ops stack]
      simp only [Option.bind_eq_bind, Option.some_bind]
      rw [iht (fun n hn => ihns n (List.mem_cons_of_mem x hn)) (ops ++ units x)]
      rw [List.append_assoc]

/-- Re-parsing the emission of `t` builds the collapse of its units. -/
theorem build_emitTok (t : Node) :
    build_ast (emitTok t) = some (collapse1 (units t)) := by
  unfold build_ast
  rw [buildFold_emitTok t [] []]
  rfl

/-- A singleton block optimizes exactly like its element. -/
theorem optimize_block_singleton (x : Node) :
    optimize_ast (Node.block [x]) = optimize_ast x := by
  rw [optimize_block]
  show collapse1 (foldRuns [optimize_ast x]) = optimize_ast x
  have : foldRuns [optimize_ast x] = [optimize_ast x] := by
    cases optimize_ast x <;> simp [foldRuns]
  rw [this]
  rfl

/-- Optimizing after the builder's singleton collapse is the same as
optimizing the block itself. -/
theorem optimize_collapse1 (l : List Node) :
    optimize_ast (collapse1 l) = optimize_ast (Node.block l) := by
  match l with
  | [] => rfl
  | [n] => exact (optimize_block_singleton n).symm
  | a :: b :: t => rfl

/-! ## No-block-children invariant -/

theorem nbcListB_eq_all (l : List Node) :
    nbcListB l = l.all fun n => !isBlockB n && nbcB n := by
  induction l with
  | nil => rfl
  | cons x t ih =>
    show (!isBlockB x && nbcB x && nbcListB t) = _
    rw [List.all_cons, ih]

theorem nbcListB_append (l1 l2 : List Node) :
    nbcListB (l1 ++ l2) = (nbcListB l1 && nbcListB l2) := by
  simp [nbcListB_eq_all, List.all_append]

/-- `foldRuns` preserves any elementwise predicate that holds of every
`Incr` and every `Move`. -/
theorem foldRuns_all_pred {p : Node → Bool} (hpi : ∀ v, p (Node.incr v) = true)
    (hpm : ∀ v, p (Node.move v) = true) :
    ∀ {l : List Node}, l.all p = true → (foldRuns l).all p = true := by
  intro l
  induction l with
  | nil => intro h; exact h
  | cons x rest ih =>
    intro h
    rw [List.all_cons, Bool.and_eq_true] at h
    have ihr := ih h.2
    cases x with
    | incr v =>
      rcases ht : foldRuns rest with _ | ⟨n, out⟩
      · rw [foldRuns_cons_incr_nil ht]
        simp [hpi]
      · rw [ht] at ihr
        cases n with
        | incr w =>
          rw [foldRuns_cons_incr_merge ht]
          rw [List.all_cons, Bool.and_eq_true] at ihr ⊢
          exact ⟨hpi (v + w), ihr.2⟩
        | move w =>
          rw [foldRuns_cons_incr_head ht rfl]
          rw [List.all_cons, Bool.and_eq_true]
          exact ⟨hpi v, ihr⟩
        | write =>
          rw [foldRuns_cons_incr_head ht rfl]
          rw [List.all_cons, Bool.and_eq_true]
          exact ⟨hpi v, ihr⟩
        | loop b =>
          rw [foldRuns_cons_incr_head ht rfl]
          rw [List.all_cons, Bool.and_eq_true]
          exact ⟨hpi v, ihr⟩
        | block bs =>
          rw [foldRuns_cons_incr_head ht rfl]
          rw [List.all_cons, Bool.and_eq_true]
          exact ⟨hpi v, ihr⟩
    | move v =>
      rcases ht : foldRuns rest with _ | ⟨n, out⟩
      · rw [foldRuns_cons_move_nil ht]
        simp [hpm]
      · rw [ht] at ihr
        cases n with
        | incr w =>
          rw [foldRuns_cons_move_head ht rfl]
          rw [List.all_cons, Bool.and_eq_true]
          exact ⟨hpm v, ihr⟩
        | move w =>
          rw [foldRuns_cons_move_merge ht]
          rw [List.all_cons, Bool.and_eq_true] at ihr ⊢
          exact ⟨hpm (v + w), ihr.2⟩
        | write =>
          rw [foldRuns_cons_move_head ht rfl]
          rw [List.all_cons, Bool.and_eq_true]
          exact ⟨hpm v, ihr⟩
        | loop b =>
          rw [foldRuns_cons_move_head ht rfl]
          rw [List.all_cons, Bool.and_eq_true]
          exact ⟨hpm v, ihr⟩
        | block bs =>
          rw [foldRuns_cons_move_head ht rfl]
          rw [List.all_cons, Bool.and_eq_true]
          exact ⟨hpm v, ihr⟩
    | write =>
      rw [foldRuns_cons_other (x := Node.write) rfl rfl]
      rw [List.all_cons, Bool.and_eq_true]
      exact ⟨h.1, ihr⟩
    | loop b =>
      rw [foldRuns_cons_other (x := Node.loop b) rfl rfl]
      rw [List.all_cons, Bool.and_eq_true]
      exact ⟨h.1, ihr⟩
    | block bs =>
      rw [foldRuns_cons_other (x := Node.block bs) rfl rfl]
      rw [List.all_cons, Bool.and_eq_true]
      exact ⟨h.1, ihr⟩

theorem nbcListB_mem {ns : List Node} (h : nbcListB ns = true) :
    ∀ n ∈ ns, (!isBlockB n && nbcB n) = true := by
  rw [nbcListB_eq_all] at h
  intro n hn
  exact List.all_eq_true.mp h n hn

/-- The builder invariant for block children: every sibling list in the
accumulator contains only non-`Block` nodes with no block children. -/
theorem buildFold_nbc (ts : List Token) :
    ∀ (acc : List Node × List (List Node)),
      nbcListB acc.1 = true → (∀ l ∈ acc.2, nbcListB l = true) →
      ∀ r, ts.foldlM buildStep acc = some r →
        nbcListB r.1 = true ∧ ∀ l ∈ r.2, nbcListB l = true := by
  induction ts with
  | nil =>
    intro acc h1 h2 r hr
    simp only [List.foldlM] at hr
    cases hr
    exact ⟨h1, h2⟩
  | cons tok rest ih =>
    intro acc h1 h2 r hr
    simp only [List.foldlM] at hr
    cases hstep : buildStep acc tok with
    | none => rw [hstep] at hr; cases hr
    | some acc1 =>
      rw [hstep] at hr
      obtain ⟨ops, stack⟩ := acc
      simp only at h1 h2
      have hpres : nbcListB acc1.1 = true ∧ ∀ l ∈ acc1.2, nbcListB l = true := by
        cases tok with
        | decr =>
          simp only [buildStep] at hstep
          cases hstep
          exact ⟨by simp [nbcListB_append, nbcListB, nbcB, isBlockB, h1], h2⟩
        | incr =>
          simp only [buildStep] at hstep
          cases hstep
          exact ⟨by simp [nbcListB_append, nbcListB, nbcB, isBlockB, h1], h2⟩
        | moveLeft =>
          simp only [buildStep] at hstep
          cases hstep
          exact ⟨by simp [nbcListB_append, nbcListB, nbcB, isBlockB, h1], h2⟩
        | moveRight =>
          simp only [buildStep] at hstep
          cases hstep
          exact ⟨by simp [nbcListB_append, nbcListB, nbcB, isBlockB, h1], h2⟩
        | write =>
          simp only [buildStep] at hstep
          cases hstep
          exact ⟨by simp [nbcListB_append, nbcListB, nbcB, isBlockB, h1], h2⟩
        | loopBegin =>
          simp only [buildStep] at hstep
          cases hstep
          refine ⟨rfl, ?_⟩
          intro l hl
          rcases List.mem_cons.mp hl with rfl | hl
          · exact h1
          · exact h2 l hl
        | loopEnd =>
          simp only [buildStep] at hstep
          cases stack with
          | nil => cases hstep
          | cons prev srest =>
            cases hstep
            have hprev : nbcListB prev = true := h2 prev (List.mem_cons_self prev srest)
            refine ⟨by simp [nbcListB_append, nbcListB, nbcB, isBlockB, hprev, h1], ?_⟩
            intro l hl
            exact h2 l (List.mem_cons_of_mem prev hl)
      exact ih acc1 hpres.1 hpres.2 r hr

theorem nbcB_collapse1 {l : List Node} (h : nbcListB l = true) :
    nbcB (collapse1 l) = true := by
  match l with
  | [] => rfl
  | [n] =>
    have h2 : (!isBlockB n && nbcB n && nbcListB []) = true := h
    simp only [Bool.and_eq_true] at h2
    exact h2.1.2
  | a :: b :: t => exact h

/-- Every AST the builder returns has no block children inside blocks. -/
theorem build_nbc {ts : List Token} {t : Node} (h : build_ast ts = some t) :
    nbcB t = true := by
  unfold build_ast at h
  cases hf : ts.foldlM buildStep ([], []) with
  | none => rw [hf] at h; cases h
  | some r =>
    rw [hf] at h
    obtain ⟨hops, _⟩ := buildFold_nbc ts ([], []) rfl (by intro l hl; cases hl) r hf
    have hts : some (collapse1 r.1) = some t := h
    injection hts with hts
    subst hts
    exact nbcB_collapse1 hops

/-- The optimizer preserves the no-block-children invariant on trees with
no zero-delta leaves, and never turns a non-block node into a block. -/
theorem nbc_optimize : ∀ t, nzB t = true → nbcB t = true →
    nbcB (optimize_ast t) = true ∧
      (isBlockB t = false → isBlockB (optimize_ast t) = false) := by
  intro t
  induction t using Node.recMem with
  | hincr v =>
    intro hnz hnbc
    have hv : v ≠ 0 := by simpa [nzB] using hnz
    rw [show optimize_ast (Node.incr v) = Node.incr v by simp [optimize_ast, hv]]
    exact ⟨rfl, fun h => h⟩
  | hmove v =>
    intro hnz hnbc
    have hv : v ≠ 0 := by simpa [nzB] using hnz
    rw [show optimize_ast (Node.move v) = Node.move v by simp [optimize_ast, hv]]
    exact ⟨rfl, fun h => h⟩
  | hwrite => intro hnz hnbc; exact ⟨rfl, fun h => h⟩
  | hloop b ihb =>
    intro hnz hnbc
    have hb := ihb (by simpa [nzB] using hnz) (by simpa [nbcB] using hnbc)
    exact ⟨hb.1, fun h => rfl⟩
  | hblock ns ihns =>
    intro hnz hnbc
    have hnzm := nzListB_mem (hnz : nzListB ns = true)
    have hnbcm := nbcListB_mem (hnbc : nbcListB ns = true)
    have hall : ((ns.map optimize_ast).all fun n => !isBlockB n && nbcB n) = true := by
      rw [List.all_map]
      rw [List.all_eq_true]
      intro n hn
      have hp := hnbcm n hn
      simp only [Bool.and_eq_true, Bool.not_eq_true'] at hp
      have hihn := ihns n hn (hnzm n hn) hp.2
      simp only [Function.comp_apply, Bool.and_eq_true, Bool.not_eq_true']
      exact ⟨hihn.2 hp.1, hihn.1⟩
    have hfold := foldRuns_all_pred (p := fun n => !isBlockB n && nbcB n)
      (fun v => rfl) (fun v => rfl) hall
    rw [optimize_block]
    constructor
    · rcases hL : foldRuns (ns.map optimize_ast) with _ | ⟨n, out⟩
      · rfl
      · rw [hL] at hfold
        cases out with
        | nil =>
          show nbcB n = true
          rw [List.all_cons, Bool.and_eq_true] at hfold
          simp only [Bool.and_eq_true] at hfold
          exact hfold.1.2
        | cons m t2 =>
          show nbcListB (n :: m :: t2) = true
          rw [nbcListB_eq_all]
          exact hfold
    · intro hfalse
      cases hfalse

/-! ## Re-optimizing the re-parsed units recovers a normal-form tree -/

/-- Folding a nonempty replicated `Incr` run in front of a list whose
folding does not start with an `Incr`. -/
theorem foldRuns_replicate_incr (e : Int) :
    ∀ k : Nat, 1 ≤ k → ∀ L : List Node,
      (foldRuns L = [] ∨ ∃ n out, foldRuns L = n :: out ∧ isIncrB n = false) →
      foldRuns (List.replicate k (Node.incr e) ++ L) =
        Node.incr ((k : Int) * e) :: foldRuns L := by
  intro k
  induction k with
  | zero => intro h; cases h
  | succ k ih =>
    intro _ L hL
    cases Nat.eq_zero_or_pos k with
    | inl hk0 =>
      subst hk0
      rw [List.replicate_succ, List.replicate_zero, List.singleton_append]
      rcases hL with h0 | ⟨n, out, heq, hni⟩
      · rw [foldRuns_cons_incr_nil h0, h0]
        simp
      · rw [foldRuns_cons_incr_head heq hni, heq]
        simp
    | inr hk1 =>
      have hf := ih hk1 L hL
      rw [List.replicate_succ, List.cons_append, foldRuns_cons_incr_merge hf]
      congr 1
      push_cast
      ring_nf

/-- Folding a nonempty replicated `Move` run in front of a list whose
folding does not start with a `Move`. -/
theorem foldRuns_replicate_move (e : Int) :
    ∀ k : Nat, 1 ≤ k → ∀ L : List Node,
      (foldRuns L = [] ∨ ∃ n out, foldRuns L = n :: out ∧ isMoveB n = false) →
      foldRuns (List.replicate k (Node.move e) ++ L) =
        Node.move ((k : Int) * e) :: foldRuns L := by
  intro k
  induction k with
  | zero => intro h; cases h
  | succ k ih =>
    intro _ L hL
    cases Nat.eq_zero_or_pos k with
    | inl hk0 =>
      subst hk0
      rw [List.replicate_succ, List.replicate_zero, List.singleton_append]
      rcases hL with h0 | ⟨n, out, heq, hni⟩
      · rw [foldRuns_cons_move_nil h0, h0]
        simp
      · rw [foldRuns_cons_move_head heq hni, heq]
        simp
    | inr hk1 =>
      have hf := ih hk1 L hL
      rw [List.replicate_succ, List.cons_append, foldRuns_cons_move_merge hf]
      congr 1
      push_cast
      ring_nf

theorem natAbs_pos_of_ne {v : Int} (hv : v ≠ 0) : 1 ≤ v.natAbs := by
  omega

theorem invListB_eq_all (l : List Node) : invListB l = l.all invB := by
  induction l with
  | nil => rfl
  | cons x t ih =>
    show (invB x && invListB t) = _
    rw [List.all_cons, ih]

theorem natAbs_mul_sign {v : Int} :
    ((v.natAbs : Int) * (if v < 0 then -1 else 1)) = v := by
  by_cases hv : v < 0 <;> simp only [hv, if_true, if_false] <;> omega

/-- The units of a nonzero `Incr` optimize to themselves. -/
theorem map_opt_units_incr {v : Int} :
    (units (Node.incr v)).map optimize_ast = units (Node.incr v) := by
  show (List.replicate v.natAbs (Node.incr (if v < 0 then -1 else 1))).map optimize_ast =
    List.replicate v.natAbs (Node.incr (if v < 0 then -1 else 1))
  rw [List.map_replicate]
  by_cases hv : v < 0 <;> simp [hv, optimize_ast]

theorem map_opt_units_move {v : Int} :
    (units (Node.move v)).map optimize_ast = units (Node.move v) := by
  show (List.replicate v.natAbs (Node.move (if v < 0 then -1 else 1))).map optimize_ast =
    List.replicate v.natAbs (Node.move (if v < 0 then -1 else 1))
  rw [List.map_replicate]
  by_cases hv : v < 0 <;> simp [hv, optimize_ast]

/-- Folding the optimized units of a normal-form sibling list recovers the
list itself. -/
theorem foldRuns_opt_unitsList :
    ∀ ns : List Node,
      noAdjB ns = true →
      (∀ n ∈ ns, isBlockB n = false ∧ nzB n = true) →
      (∀ n ∈ ns, optimize_ast (Node.block (units n)) = n) →
      foldRuns ((unitsList ns).map optimize_ast) = ns := by
  intro ns
  induction ns with
  | nil => intro _ _ _; rfl
  | cons n t ih =>
    intro hadj hcond hunits
    have hadjt : noAdjB t = true := by
      cases t with
      | nil => rfl
      | cons y t2 =>
        simp only [noAdjB, Bool.and_eq_true] at hadj
        exact hadj.2
    have hrest : foldRuns ((unitsList t).map optimize_ast) = t :=
      ih hadjt (fun m hm => hcond m (List.mem_cons_of_mem n hm))
        (fun m hm => hunits m (List.mem_cons_of_mem n hm))
    have hsplit : (unitsList (n :: t)).map optimize_ast =
        (units n).map optimize_ast ++ (unitsList t).map optimize_ast := by
      show (units n ++ unitsList t).map optimize_ast = _
      rw [List.map_append]
    rw [hsplit]
    have hn := hcond n (List.mem_cons_self n t)
    cases n with
    | incr v =>
      have hv : v ≠ 0 := by simpa [nzB] using hn.2
      rw [map_opt_units_incr]
      show foldRuns (List.replicate v.natAbs (Node.incr (if v < 0 then -1 else 1)) ++
        (unitsList t).map optimize_ast) = Node.incr v :: t
      rw [foldRuns_replicate_incr (if v < 0 then -1 else 1) v.natAbs
        (natAbs_pos_of_ne hv) ((unitsList t).map optimize_ast) ?_, hrest,
        natAbs_mul_sign]
      rw [hrest]
      cases t with
      | nil => exact Or.inl rfl
      | cons m t2 =>
        refine Or.inr ⟨m, t2, rfl, ?_⟩
        simp only [noAdjB, Bool.and_eq_true] at hadj
        have := hadj.1
        cases m <;> simp_all [sameKindB, isIncrB, isMoveB]
    | move v =>
      have hv : v ≠ 0 := by simpa [nzB] using hn.2
      rw [map_opt_units_move]
      show foldRuns (List.replicate v.natAbs (Node.move (if v < 0 then -1 else 1)) ++
        (unitsList t).map optimize_ast) = Node.move v :: t
      rw [foldRuns_replicate_move (if v < 0 then -1 else 1) v.natAbs
        (natAbs_pos_of_ne hv) ((unitsList t).map optimize_ast) ?_, hrest,
        natAbs_mul_sign]
      rw [hrest]
      cases t with
      | nil => exact Or.inl rfl
      | cons m t2 =>
        refine Or.inr ⟨m, t2, rfl, ?_⟩
        simp only [noAdjB, Bool.and_eq_true] at hadj
        have := hadj.1
        cases m <;> simp_all [sameKindB, isIncrB, isMoveB]
    | write =>
      show foldRuns (Node.write :: (unitsList t).map optimize_ast) = Node.write :: t
      rw [foldRuns_cons_other (x := Node.write) rfl rfl, hrest]
    | loop b =>
      have hseg : (units (Node.loop b)).map optimize_ast = [Node.loop b] := by
        show [optimize_ast (Node.loop (Node.block (units b)))] = [Node.loop b]
        have := hunits (Node.loop b) (List.mem_cons_self _ t)
        rw [show units (Node.loop b) = [Node.loop (Node.block (units b))] from rfl,
          optimize_block_singleton] at this
        rw [this]
      rw [hseg]
      show foldRuns (Node.loop b :: (unitsList t).map optimize_ast) = Node.loop b :: t
      rw [foldRuns_cons_other (x := Node.loop b) rfl rfl, hrest]
    | block bs =>
      exact absurd hn.1 (by simp [isBlockB])

/-- Re-optimizing the block of units of a tree in optimizer normal form
(no length-1 block, no adjacent mergeable pair, no zero delta, no block
children) recovers the tree. -/
theorem optimize_units : ∀ g, invB g = true → nzB g = true → nbcB g = true →
    optimize_ast (Node.block (units g)) = g := by
  intro g
  induction g using Node.recMem with
  | hincr v =>
    intro hi hz hb
    have hv : v ≠ 0 := by simpa [nzB] using hz
    rw [optimize_block, map_opt_units_incr]
    have hfold := foldRuns_replicate_incr (if v < 0 then -1 else 1) v.natAbs
      (natAbs_pos_of_ne hv) [] (Or.inl rfl)
    rw [List.append_nil] at hfold
    show collapse1 (foldRuns (List.replicate v.natAbs
      (Node.incr (if v < 0 then -1 else 1)))) = Node.incr v
    rw [hfold, natAbs_mul_sign]
    rfl
  | hmove v =>
    intro hi hz hb
    have hv : v ≠ 0 := by simpa [nzB] using hz
    rw [optimize_block, map_opt_units_move]
    have hfold := foldRuns_replicate_move (if v < 0 then -1 else 1) v.natAbs
      (natAbs_pos_of_ne hv) [] (Or.inl rfl)
    rw [List.append_nil] at hfold
    show collapse1 (foldRuns (List.replicate v.natAbs
      (Node.move (if v < 0 then -1 else 1)))) = Node.move v
    rw [hfold, natAbs_mul_sign]
    rfl
  | hwrite =>
    intro hi hz hb
    rfl
  | hloop b ihb =>
    intro hi hz hb
    show optimize_ast (Node.block [Node.loop (Node.block (units b))]) = Node.loop b
    rw [optimize_block_singleton]
    show Node.loop (optimize_ast (Node.block (units b))) = Node.loop b
    rw [ihb (by simpa [invB] using hi) (by simpa [nzB] using hz) (by simpa [nbcB] using hb)]
  | hblock ns ihns =>
    intro hi hz hb
    simp only [invB, Bool.and_eq_true, bne_iff_ne, ne_eq] at hi
    obtain ⟨⟨hlen, hadj⟩, hinv⟩ := hi
    have hinvm : ∀ n ∈ ns, invB n = true := by
      intro n hn
      rw [invListB_eq_all] at hinv
      exact List.all_eq_true.mp hinv n hn
    have hnzm := nzListB_mem (hz : nzListB ns = true)
    have hnbcm := nbcListB_mem (hb : nbcListB ns = true)
    show optimize_ast (Node.block (unitsList ns)) = Node.block ns
    rw [optimize_block, foldRuns_opt_unitsList ns hadj ?hc ?hu,
      collapse1_of_len_ne_one hlen]
    case hc =>
      intro n hn
      have := hnbcm n hn
      simp only [Bool.and_eq_true, Bool.not_eq_true'] at this
      exact ⟨this.1, (by simp only [Bool.and_eq_true] at *; exact (hnzm n hn))⟩
    case hu =>
      intro n hn
      have hp := hnbcm n hn
      simp only [Bool.and_eq_true, Bool.not_eq_true'] at hp
      exact ihns n hn (hinvm n hn) (hnzm n hn) hp.2

/-! ## Claim theorems -/

/-- **C1.** For every syntactically valid program (a token sequence on
which the AST builder succeeds, returning `t`), interpreting the raw AST
`t` and interpreting `optimize_ast t` from the same state — in particular
from the all-zero initial tape with pointer 0 — produce identical output
byte streams and identical final tape contents and pointer value: for
every start state the two interpreters terminate successfully on exactly
the same final-state/output pairs. -/
theorem c1_optimize_preserves_semantics {ts : List Token} {t : Node}
    (hbuild : build_ast ts = some t) (s s2 : State) (o : List Nat) :
    (∃ f, run_ast f t s = Except.ok (s2, o)) ↔
      (∃ f, run_ast f (optimize_ast t) s = Except.ok (s2, o)) := by
  rw [run_agrees, run_agrees]
  exact exec_optimize (build_nz hbuild) s s2 o

/-- Witness for C1 at the program `"+"` from the all-zero initial state. -/
theorem c1_witness :
    build_ast (parse_source "+".data) = some (Node.incr 1) ∧
      ((∃ f, run_ast f (Node.incr 1) initState =
          Except.ok (⟨(List.replicate tapeLen 0).set 0 1, 0⟩, [])) ↔
        (∃ f, run_ast f (optimize_ast (Node.incr 1)) initState =
          Except.ok (⟨(List.replicate tapeLen 0).set 0 1, 0⟩, []))) :=
  ⟨rfl, c1_optimize_preserves_semantics
    (rfl : build_ast (parse_source "+".data) = some (Node.incr 1))
    initState ⟨(List.replicate tapeLen 0).set 0 1, 0⟩ []⟩

/-- **C2 counterexample.** The optimizer is not idempotent: on
`Block [Incr 1, Incr (-1)]` one pass merges the run to `Incr 0`
(zero-elimination runs before merging, so the merged zero survives), and a
second pass turns that `Incr 0` into `Block []`. -/
theorem c2_counterexample :
    optimize_ast (optimize_ast (Node.block [Node.incr 1, Node.incr (-1)])) ≠
      optimize_ast (Node.block [Node.incr 1, Node.incr (-1)]) := by
  intro h
  have h2 : Node.block [] = Node.incr 0 := h
  cases h2

/-- **C2 (amended).** The optimizer is not idempotent, but it stabilizes
after one further pass: for every tree `t`,
`optimize (optimize (optimize t)) = optimize (optimize t)`. -/
theorem c2_optimize_stabilizes (t : Node) :
    optimize_ast (optimize_ast (optimize_ast t)) =
      optimize_ast (optimize_ast t) :=
  optimize_third_pass_id t

/-- **C3.** (code bug) On the program `"]"` — a `LoopEnd` with no matching
open `LoopBegin` — the builder does not report a parse error to the
caller: the Rust code executes `stack.pop().unwrap()` on an empty stack
and panics, aborting the process.  The panic is modeled as `none`; no
error value is ever produced. -/
theorem c3_unmatched_loopEnd_panics :
    parse_source "]".data = [Token.loopEnd] ∧
      build_ast (parse_source "]".data) = none :=
  ⟨rfl, rfl⟩

/-- **C4.** (code bug) On the programs `"["` and `"+["` — an unmatched
`LoopBegin` remaining when all tokens are consumed — the builder does not
report a fatal parse error: it silently discards the unfinished nesting
(including the already-parsed `Incr 1` of `"+["`) and returns an AST. -/
theorem c4_unmatched_loopBegin_silently_accepted :
    build_ast (parse_source "[".data) = some (Node.block []) ∧
      build_ast (parse_source "+[".data) = some (Node.block []) :=
  ⟨rfl, rfl⟩

/-- **C5.** (code bug) Executing `Move (-1)` at pointer 0 does not fail
with a tape-bounds error: `(index as isize + val) as usize` silently wraps
the pointer to `2^64 - 1`, far outside the 30000-cell tape, and the `Move`
itself reports success. -/
theorem c5_move_wraps_silently :
    run_ast 1 (Node.move (-1)) initState =
      Except.ok (⟨List.replicate tapeLen 0, 2 ^ 64 - 1⟩, []) ∧
      ¬(2 ^ 64 - 1 < tapeLen) :=
  ⟨rfl, by decide⟩

/-- **C6.** Executing `Incr v` at a readable cell holding `c` sets that
cell to `(c + v) mod 256` — 8-bit wraparound in both directions, for every
starting cell value and every signed delta — leaving the pointer
unchanged and emitting no output; the stored value is again a byte. -/
theorem c6_incr_mod256 {s : State} {c : Nat} (f : Nat) (v : Int)
    (hm : s.memory[s.index]? = some c) {s2 : State} {o : List Nat}
    (hrun : run_ast (f + 1) (Node.incr v) s = Except.ok (s2, o)) :
    s2.memory[s.index]? = some ((((c : Int) + v) % 256).toNat) ∧
      s2.index = s.index ∧ o = [] ∧ (((c : Int) + v) % 256).toNat < 256 := by
  rw [run_incr_ok f v hm] at hrun
  have hlen : s.index < s.memory.length := (List.getElem?_eq_some.mp hm).1
  injection hrun with hrun
  injection hrun with hs2 ho
  subst hs2
  subst ho
  refine ⟨List.getElem?_set_self hlen, rfl, rfl, ?_⟩
  have h1 : 0 ≤ ((c : Int) + v) % 256 := Int.emod_nonneg _ (by norm_num)
  have h2 : ((c : Int) + v) % 256 < 256 := Int.emod_lt_of_pos _ (by norm_num)
  omega

/-- Witness for C6: `255 + 1` wraps to `0`. -/
theorem c6_witness :
    (⟨[0], 0⟩ : State).memory[(⟨[255], 0⟩ : State).index]? =
        some (((((255 : Nat) : Int) + 1) % 256).toNat) ∧
      (⟨[0], 0⟩ : State).index = (⟨[255], 0⟩ : State).index ∧
      ([] : List Nat) = [] ∧ ((((255 : Nat) : Int) + 1) % 256).toNat < 256 :=
  c6_incr_mod256 0 1
    (rfl : (⟨[255], 0⟩ : State).memory[(⟨[255], 0⟩ : State).index]? = some 255)
    (rfl : run_ast (0 + 1) (Node.incr 1) ⟨[255], 0⟩ = Except.ok ((⟨[0], 0⟩ : State), []))

/-- **C7.** Executing `Loop body` first reads the cell at the current
pointer.  If it is 0 the loop returns immediately, executing the body zero
times and leaving state and output untouched; if it is nonzero the loop
runs the body once and then re-enters the whole loop from the body's
result state `r1.1` — so the terminating test is re-evaluated at the
(possibly moved) current pointer after each full execution of the body. -/
theorem c7_loop_semantics {s : State} {c : Nat} (f : Nat) (b : Node)
    (hm : s.memory[s.index]? = some c) :
    (c = 0 → run_ast (f + 1) (Node.loop b) s = Except.ok (s, [])) ∧
      (c ≠ 0 → run_ast (f + 1) (Node.loop b) s =
        (run_ast f b s >>= fun r1 =>
          run_ast f (Node.loop b) r1.1 >>= fun r2 =>
            Except.ok (r2.1, r1.2 ++ r2.2))) := by
  constructor
  · rintro rfl
    exact run_loop_done f b hm
  · intro hc
    obtain ⟨c1, rfl⟩ : ∃ c1, c = c1 + 1 := ⟨c - 1, by omega⟩
    exact run_loop_step f b hm

/-- Witness for C7 at a cell holding 8 and the body `Incr (-1)`. -/
theorem c7_witness :
    ((8 : Nat) = 0 → run_ast 1 (Node.loop (Node.incr (-1))) ⟨[8], 0⟩ =
        Except.ok (⟨[8], 0⟩, [])) ∧
      ((8 : Nat) ≠ 0 → run_ast 1 (Node.loop (Node.incr (-1))) ⟨[8], 0⟩ =
        (run_ast 0 (Node.incr (-1)) ⟨[8], 0⟩ >>= fun r1 =>
          run_ast 0 (Node.loop (Node.incr (-1))) r1.1 >>= fun r2 =>
            Except.ok (r2.1, r1.2 ++ r2.2))) :=
  c7_loop_semantics 0 (Node.incr (-1))
    (rfl : (⟨[8], 0⟩ : State).memory[(⟨[8], 0⟩ : State).index]? = some 8)

/-- **C8.** Inside a `Block` the optimizer first optimizes each child
recursively and then folds every maximal run of consecutive `Incr` nodes
into one `Incr` carrying the run's sum (likewise for `Move`); `Write` and
`Loop` nodes pass through and reset the current run (this is exactly
`foldRuns`, followed by the singleton collapse).  In particular the
program `"+++--"` compiles to the single node `Incr 1`. -/
theorem c8_block_folding :
    (∀ ns, optimize_ast (Node.block ns) = collapse1 (foldRuns (ns.map optimize_ast))) ∧
      compile_source "+++--" = some (Node.incr 1) :=
  ⟨optimize_block, rfl⟩

/-- **C9 counterexample.** The round-trip through the esolang emitter
fails on the valid program `"+-"`: its optimized AST is `Incr 0`, which
emits as the empty string; re-parsing and re-optimizing the empty string
yields `Block []`, which is not structurally equal to `Incr 0`. -/
theorem c9_counterexample :
    build_ast (parse_source "+-".data) =
        some (Node.block [Node.incr 1, Node.incr (-1)]) ∧
      optimize_ast (Node.block [Node.incr 1, Node.incr (-1)]) = Node.incr 0 ∧
      (build_ast (parse_source (write_bf (Node.incr 0)))).map optimize_ast =
        some (Node.block []) ∧
      Node.block [] ≠ Node.incr 0 := by
  refine ⟨rfl, rfl, rfl, ?_⟩
  intro h
  cases h

/-- **C9 (amended).** For every syntactically valid program whose
optimized AST contains no zero-delta `Incr`/`Move` node (zero-delta nodes
emit as the empty string and are lost), emitting `optimize_ast t` as
esolang text and re-parsing and re-optimizing the emitted text yields a
tree structurally equal to `optimize_ast t`. -/
theorem c9_roundtrip {ts : List Token} {t : Node}
    (hbuild : build_ast ts = some t)
    (hnz : nzB (optimize_ast t) = true) :
    (build_ast (parse_source (write_bf (optimize_ast t)))).map optimize_ast =
      some (optimize_ast t) := by
  rw [parse_write_bf, build_emitTok]
  show some (optimize_ast (collapse1 (units (optimize_ast t)))) = _
  rw [optimize_collapse1, optimize_units (optimize_ast t) (invB_optimize t) hnz
    (nbc_optimize t (build_nz hbuild) (build_nbc hbuild)).1]

/-- Witness for C9 at the program `"+"`. -/
theorem c9_witness :
    (build_ast (parse_source (write_bf (optimize_ast (Node.incr 1))))).map optimize_ast =
      some (optimize_ast (Node.incr 1)) :=
  c9_roundtrip (rfl : build_ast (parse_source "+".data) = some (Node.incr 1)) rfl

/-- **C10.** Frame effects of the leaf operations: a successful `Incr`
changes only the tape cell at the current pointer (the pointer, the tape
length and every other cell are unchanged); a successful `Move` changes
only the pointer (the tape is unchanged); a successful `Write` changes
neither tape nor pointer. -/
theorem c10_frame_effects :
    (∀ (f : Nat) (v : Int) (s s2 : State) (o : List Nat),
        run_ast f (Node.incr v) s = Except.ok (s2, o) →
          s2.index = s.index ∧ s2.memory.length = s.memory.length ∧
            ∀ j, j ≠ s.index → s2.memory[j]? = s.memory[j]?) ∧
      (∀ (f : Nat) (v : Int) (s s2 : State) (o : List Nat),
        run_ast f (Node.move v) s = Except.ok (s2, o) → s2.memory = s.memory) ∧
      (∀ (f : Nat) (s s2 : State) (o : List Nat),
        run_ast f Node.write s = Except.ok (s2, o) → s2 = s) := by
  refine ⟨?_, ?_, ?_⟩
  · intro f v s s2 o h
    match f with
    | 0 => rw [run_zero] at h; cases h
    | f + 1 =>
      cases hm : s.memory[s.index]? with
      | none => rw [run_incr_oob f v hm] at h; cases h
      | some c =>
        rw [run_incr_ok f v hm] at h
        injection h with h
        injection h with hs2 ho
        subst hs2
        refine ⟨rfl, by simp [List.length_set], ?_⟩
        intro j hj
        exact List.getElem?_set_ne (Ne.symm hj)
  · intro f v s s2 o h
    match f with
    | 0 => rw [run_zero] at h; cases h
    | f + 1 =>
      rw [run_move] at h
      injection h with h
      injection h with hs2 ho
      subst hs2
      rfl
  · intro f s s2 o h
    match f with
    | 0 => rw [run_zero] at h; cases h
    | f + 1 =>
      cases hm : s.memory[s.index]? with
      | none => rw [run_write_oob f hm] at h; cases h
      | some c =>
        rw [run_write_ok f hm] at h
        injection h with h
        injection h with hs2 ho
        subst hs2
        rfl

/-- Witness for C10 at `Incr 1`, `Move 1` and `Write` on the tape
`[5, 7]`. -/
theorem c10_witness :
    ((⟨[6, 7], 0⟩ : State).index = (⟨[5, 7], 0⟩ : State).index ∧
      (⟨[6, 7], 0⟩ : State).memory.length = (⟨[5, 7], 0⟩ : State).memory.length ∧
      ∀ j, j ≠ (⟨[5, 7], 0⟩ : State).index →
        (⟨[6, 7], 0⟩ : State).memory[j]? = (⟨[5, 7], 0⟩ : State).memory[j]?) ∧
      (⟨[5, 7], 1⟩ : State).memory = (⟨[5, 7], 0⟩ : State).memory ∧
      (⟨[5, 7], 0⟩ : State) = (⟨[5, 7], 0⟩ : State) :=
  ⟨c10_frame_effects.1 1 1 ⟨[5, 7], 0⟩ ⟨[6, 7], 0⟩ [] rfl,
    c10_frame_effects.2.1 1 1 ⟨[5, 7], 0⟩ ⟨[5, 7], 1⟩ [] rfl,
    c10_frame_effects.2.2 1 ⟨[5, 7], 0⟩ ⟨[5, 7], 0⟩ [5] rfl⟩

end BF
